import Mathlib

/-!
# BB84 key distribution simulation (package `bb84`, file `bb84/qk.go`)

Shallow embedding of the protocol engine and of the secure-communication
layer, followed by the properties established about them.

Conventions of the embedding
* Go `int` is `Int`; `Basis` is the Go type `Basis int`.
* Go slices are lists; a nil slice and an empty slice are both `[]`.
* Go `byte` is a `Nat` below 256; a Go `string` holding payload data is the
  list of its bytes.
* A function that can end in a run-time panic (index out of range, integer
  division by zero, nil dereference, `make` with a length that is negative
  or beyond the limit of the runtime) returns an `Option`, and `none` is the
  panic.  Exhaustion of the machine's memory below that limit is not
  modelled.
* A pointer-receiver method returns the receiver after the call together
  with its Go results; a Go `error` result is an `Option GoError`
  (`none` is `nil`).
* The process-wide entropy source is an oracle `Entropy`: the outcome of the
  k-th request `rand.Int(rand.Reader, big.NewInt(2))` made so far, either a
  value or a failure.  A position counter is threaded through the code.
-/

namespace BB84

/-! ## Data model -/

/-- Go type `Basis int`. -/
abbrev Basis := Int

/-- Computational basis, `ZBasis Basis = iota`. -/
def ZBasis : Basis := 0

/-- Hadamard basis. -/
def XBasis : Basis := 1

/-- Participant represents Alice or Bob in the protocol. -/
structure Participant where
  bits : List Int
  bases : List Basis
  name : String
  deriving DecidableEq, Repr

/-- QuantumChannel simulates the quantum transmission. -/
structure QuantumChannel where
  transmittedBits : List Int
  deriving DecidableEq, Repr

/-- Message represents an encrypted message; `Ciphertext` is the byte
sequence of the Go string. -/
structure Message where
  Ciphertext : List Nat
  Sender : String
  deriving DecidableEq, Repr

/-- SecureCommunication handles encryption and decryption. -/
structure SecureCommunication where
  sharedKey : List Int
  messages : List Message
  deriving DecidableEq, Repr

/-- BB84Protocol coordinates the execution of the key distribution. -/
structure BB84Protocol where
  alice : Participant
  bob : Participant
  sharedKey : List Int
  numberOfBits : Int
  channel : QuantumChannel
  SecureComm : SecureCommunication
  deriving DecidableEq, Repr

/-- The non-nil `error` values built by the package. -/
inductive GoError where
  /-- Error `errors.New("number of bits must be greater than zero")` -/
  | nonPositiveCount : GoError
  /-- Error `fmt.Errorf("failed to generate random sequence: %v", err)` -/
  | randomSequence : GoError
  /-- Wrapper `fmt.Errorf` of `Run` around the first generation step -/
  | aliceBits : GoError → GoError
  /-- Wrapper `fmt.Errorf` of `Run` around the second generation step -/
  | aliceBases : GoError → GoError
  /-- Wrapper `fmt.Errorf` of `Run` around the third generation step -/
  | bobBases : GoError → GoError
  /-- Error `fmt.Errorf("failed to decode ciphertext: %v", err)` -/
  | decodeCiphertext : GoError
  deriving DecidableEq, Repr

/-- Entropy oracle: outcome of the k-th request to
`rand.Int(rand.Reader, big.NewInt(2))`; `none` is a failed request. -/
abbrev Entropy := Nat → Option Int

/-- NewBB84Protocol initializes the protocol (all other fields are zero
values). -/
def NewBB84Protocol (bits : Int) : BB84Protocol :=
  { alice := { bits := [], bases := [], name := "Alice" }
    bob := { bits := [], bases := [], name := "Bob" }
    sharedKey := []
    numberOfBits := bits
    channel := { transmittedBits := [] }
    SecureComm := { sharedKey := [], messages := [] } }

/-! ## Random sequence generation -/

/-- Largest length `n` for which `make([]int, n)` and `make([]Basis, n)` do
not panic with "makeslice: len out of range".  The Go runtime, which is not
part of the package, refuses a slice of more than `maxAlloc` bytes; on the
64-bit platforms `maxAlloc` is `2^48` and both element types take 8 bytes,
which gives `2^45 = 35184372088832` elements. -/
def maxSliceLen : Nat := 35184372088832

/-- Body of the loop `for i := 0; i < n; i++` of `generateRandomSequence`
started at index `i` with `k` iterations left.  A failed request returns
the error at once; the receiver keeps what was written so far. -/
def generateLoop (rng : Entropy) (isBit : Bool) :
    Nat → Nat → Participant → Nat → Participant × Nat × Option GoError
  | _, 0, p, pos => (p, pos, none)
  | i, k + 1, p, pos =>
    match rng pos with
    | none => (p, pos + 1, some GoError.randomSequence)
    | some num =>
      if isBit then
        generateLoop rng isBit (i + 1) k { p with bits := p.bits.set i num } (pos + 1)
      else
        generateLoop rng isBit (i + 1) k { p with bases := p.bases.set i num } (pos + 1)

/-- generateRandomSequence generates random bits or bases for a
participant.  Result: the participant after the call, the entropy position
and the returned error; `none` is the panic of `make([]int, n)` or
`make([]Basis, n)` for a length beyond `maxSliceLen`. -/
def generateRandomSequence (p : Participant) (n : Int) (isBit : Bool)
    (rng : Entropy) (pos : Nat) : Option (Participant × Nat × Option GoError) :=
  if n ≤ 0 then
    some (p, pos, some GoError.nonPositiveCount)
  else if maxSliceLen < n.toNat then
    none
  else
    let p1 : Participant :=
      if isBit then { p with bits := List.replicate n.toNat 0 }
      else { p with bases := List.replicate n.toNat 0 }
    some (generateLoop rng isBit 0 n.toNat p1 pos)

/-! ## Transmission and sifting -/

/-- Loop of `simulateTransmission` from index `i` with `k` iterations left.
Index expressions are evaluated in source order; an index out of range is a
panic.  On a mismatch the error result of `rand.Int` is discarded and the
returned pointer is dereferenced, so a failed request (nil pointer) is a
panic. -/
def simulateLoop (alice bob : Participant) (rng : Entropy) :
    Nat → Nat → List Int → Nat → Option (List Int × Nat)
  | _, 0, transmittedBits, pos => some (transmittedBits, pos)
  | i, k + 1, transmittedBits, pos =>
    match alice.bases[i]? with
    | none => none
    | some a =>
      match bob.bases[i]? with
      | none => none
      | some b =>
        if a = b then
          match alice.bits[i]? with
          | none => none
          | some bit => simulateLoop alice bob rng (i + 1) k (transmittedBits.set i bit) pos
        else
          match rng pos with
          | none => none
          | some randomBit =>
            simulateLoop alice bob rng (i + 1) k (transmittedBits.set i randomBit) (pos + 1)

/-- simulateTransmission handles qubit preparation and transmission.  The
receiver `q` is not written.  `make([]int, n)` panics for negative `n`.
For `n` beyond `maxSliceLen` it panics as well; so does the loop below, at
the first index past the end of the participants' slices, whose lengths are
within that limit. -/
def simulateTransmission (_q : QuantumChannel) (alice bob : Participant) (n : Int)
    (rng : Entropy) (pos : Nat) : Option (List Int × Nat) :=
  if n < 0 then none
  else simulateLoop alice bob rng 0 n.toNat (List.replicate n.toNat 0) pos

/-- Loop of `siftKey` from index `i` with `k` iterations left. -/
def siftLoop (alice bob : Participant) (transmittedBits : List Int) :
    Nat → Nat → List Int → Option (List Int)
  | _, 0, sharedKey => some sharedKey
  | i, k + 1, sharedKey =>
    match alice.bases[i]? with
    | none => none
    | some a =>
      match bob.bases[i]? with
      | none => none
      | some b =>
        if a = b then
          match transmittedBits[i]? with
          | none => none
          | some t => siftLoop alice bob transmittedBits (i + 1) k (sharedKey ++ [t])
        else
          siftLoop alice bob transmittedBits (i + 1) k sharedKey

/-- siftKey compares bases and generates the shared key.  For `n ≤ 0` the
loop body never runs. -/
def siftKey (alice bob : Participant) (transmittedBits : List Int) (n : Int) :
    Option (List Int) :=
  siftLoop alice bob transmittedBits 0 n.toNat []

/-! ## Protocol coordinator -/

/-- InitializeSecureChannel sets up secure communication using the shared
key. -/
def InitializeSecureChannel (_s : SecureCommunication) (sharedKey : List Int) :
    SecureCommunication :=
  { sharedKey := sharedKey, messages := [] }

/-- Run executes the BB84 protocol and establishes a secure channel.
Result: the coordinator after the call, the entropy position and the
returned error; `none` is a panic. -/
def Run (bb84 : BB84Protocol) (rng : Entropy) (pos : Nat) :
    Option (BB84Protocol × Nat × Option GoError) :=
  match generateRandomSequence bb84.alice bb84.numberOfBits true rng pos with
  | none => none
  | some (a1, pos1, some err) =>
    some ({ bb84 with alice := a1 }, pos1, some (GoError.aliceBits err))
  | some (a1, pos1, none) =>
    match generateRandomSequence a1 bb84.numberOfBits false rng pos1 with
    | none => none
    | some (a2, pos2, some err) =>
      some ({ bb84 with alice := a2 }, pos2, some (GoError.aliceBases err))
    | some (a2, pos2, none) =>
      match generateRandomSequence bb84.bob bb84.numberOfBits false rng pos2 with
      | none => none
      | some (b1, pos3, some err) =>
        some ({ bb84 with alice := a2, bob := b1 }, pos3, some (GoError.bobBases err))
      | some (b1, pos3, none) =>
        match simulateTransmission bb84.channel a2 b1 bb84.numberOfBits rng pos3 with
        | none => none
        | some (transmittedBits, pos4) =>
          match siftKey a2 b1 transmittedBits bb84.numberOfBits with
          | none => none
          | some sharedKey =>
            some ({ bb84 with
                    alice := a2
                    bob := b1
                    channel := { transmittedBits := transmittedBits }
                    sharedKey := sharedKey
                    SecureComm := InitializeSecureChannel bb84.SecureComm sharedKey },
                  pos4, none)

/-! ## Key packing and XOR -/

/-- Loop of `convertKeyToBytes` from index `i` with `k` iterations left:
`if key[i] == 1 { bytes[i/8] |= 1 << uint(7-i%8) }`.  The loop bound keeps
`i` below `len(key)` and `i/8` below `len(bytes)`, so both accesses are in
range; the stored value is a byte, hence the reduction modulo 256. -/
def convertKeyLoop (key : List Int) : Nat → Nat → List Nat → List Nat
  | _, 0, bytes => bytes
  | i, k + 1, bytes =>
    if key.getD i 0 = 1 then
      convertKeyLoop key (i + 1) k
        (bytes.set (i / 8) ((bytes.getD (i / 8) 0 ||| (1 <<< (7 - i % 8))) % 256))
    else
      convertKeyLoop key (i + 1) k bytes

/-- convertKeyToBytes converts a bit array to a byte array. -/
def convertKeyToBytes (key : List Int) : List Nat :=
  convertKeyLoop key 0 key.length (List.replicate ((key.length + 7) / 8) 0)

/-- Loop of `xorBytes` (`for i := range a`) from index `i` with `k`
iterations left.  `i % len(b)` panics (integer divide by zero) when `b` is
empty; otherwise both accesses are in range. -/
def xorLoop (a b : List Nat) : Nat → Nat → List Nat → Option (List Nat)
  | _, 0, result => some result
  | i, k + 1, result =>
    if b.length = 0 then none
    else xorLoop a b (i + 1) k (result.set i (a.getD i 0 ^^^ b.getD (i % b.length) 0))

/-- xorBytes performs XOR operation on byte slices. -/
def xorBytes (a b : List Nat) : Option (List Nat) :=
  xorLoop a b 0 a.length (List.replicate a.length 0)

/-! ## Standard base64 (Go library `encoding/base64`, `StdEncoding`)

The package calls `base64.StdEncoding.EncodeToString` and
`base64.StdEncoding.DecodeString`.  They belong to the Go standard library;
the definitions below follow the library: alphabet `A-Z a-z 0-9 + /`,
padding character `=`, non-strict decoding that ignores `\r` and `\n`. -/

/-- Alphabet of `StdEncoding`: the character code of the 6-bit value `v`. -/
def encodeStd (v : Nat) : Nat :=
  if v < 26 then 65 + v
  else if v < 52 then 71 + v
  else if v < 62 then v - 4
  else if v = 62 then 43
  else 47

/-- Table `decodeMap` of `StdEncoding`: the 6-bit value of a character of
the alphabet and `0xff` for every other byte. -/
def decodeMap (c : Nat) : Nat :=
  if 65 ≤ c ∧ c ≤ 90 then c - 65
  else if 97 ≤ c ∧ c ≤ 122 then c - 71
  else if 48 ≤ c ∧ c ≤ 57 then c + 4
  else if c = 43 then 62
  else if c = 47 then 63
  else 255

/-- The padding character `=`. -/
def padChar : Nat := 61

/-- Library function `EncodeToString` of `StdEncoding`: three bytes give four characters of
the 24-bit value `b0<<16 | b1<<8 | b2`; a final block of one or two bytes is
padded with `=`. -/
def EncodeToString : List Nat → List Nat
  | [] => []
  | [b0] =>
    let val := b0 * 65536
    [encodeStd (val / 262144 % 64), encodeStd (val / 4096 % 64), padChar, padChar]
  | [b0, b1] =>
    let val := b0 * 65536 + b1 * 256
    [encodeStd (val / 262144 % 64), encodeStd (val / 4096 % 64),
     encodeStd (val / 64 % 64), padChar]
  | b0 :: b1 :: b2 :: rest =>
    let val := b0 * 65536 + b1 * 256 + b2
    encodeStd (val / 262144 % 64) :: encodeStd (val / 4096 % 64) ::
      encodeStd (val / 64 % 64) :: encodeStd (val % 64) :: EncodeToString rest

/-- Line-break characters, which the decoder ignores. -/
def isNewline (c : Nat) : Bool := c == 10 || c == 13

/-- The inner loops `for si < len(src) && (src[si] == '\n' || ...)`. -/
def skipNewlines : List Nat → List Nat
  | [] => []
  | c :: rest => if isNewline c then skipNewlines rest else c :: rest

/-- The bytes of the 24-bit value `d0<<18 | d1<<12 | d2<<6 | d3`. -/
def quantumBytes (d0 d1 d2 d3 : Nat) : List Nat :=
  let val := d0 * 262144 + d1 * 4096 + d2 * 64 + d3
  [val / 65536 % 256, val / 256 % 256, val % 256]

/-- Library function `Decode` of `StdEncoding` as repeated `decodeQuantum`: `src` is the
unread input and `dbuf` the 6-bit values read for the current quantum.
`none` is a `CorruptInputError`.  End of input inside a quantum, a byte
outside the alphabet, padding in the first two positions, a missing second
padding character and anything but line breaks after the padding are
errors.  (The 8- and 4-character fast paths of the library compute the same
bytes.) -/
def decodeLoop : List Nat → List Nat → Option (List Nat)
  | [], dbuf => if dbuf.length = 0 then some [] else none
  | c :: rest, dbuf =>
    if decodeMap c ≠ 255 then
      match dbuf with
      | [d0, d1, d2] =>
        match decodeLoop rest [] with
        | none => none
        | some out => some (quantumBytes d0 d1 d2 (decodeMap c) ++ out)
      | _ => decodeLoop rest (dbuf ++ [decodeMap c])
    else if isNewline c then decodeLoop rest dbuf
    else if c ≠ padChar then none
    else
      match dbuf with
      | [d0, d1] =>
        match skipNewlines rest with
        | [] => none
        | c2 :: rest2 =>
          if c2 ≠ padChar then none
          else if (skipNewlines rest2).length ≠ 0 then none
          else some ((quantumBytes d0 d1 0 0).take 1)
      | [d0, d1, d2] =>
        if (skipNewlines rest).length ≠ 0 then none
        else some ((quantumBytes d0 d1 d2 0).take 2)
      | _ => none

/-- Library function `DecodeString` of `StdEncoding`; `none` is a non-nil error. -/
def DecodeString (s : List Nat) : Option (List Nat) :=
  decodeLoop s []

/-- Syntax of a standard padded base64 string (RFC 4648, section 4): a
sequence of four-character groups over the alphabet, the last of which may
end in one or two padding characters. -/
def validStdBase64 : List Nat → Bool
  | [] => true
  | [c0, c1, c2, c3] =>
    decodeMap c0 != 255 && decodeMap c1 != 255 &&
      ((decodeMap c2 != 255 && decodeMap c3 != 255) ||
       (decodeMap c2 != 255 && c3 == padChar) ||
       (c2 == padChar && c3 == padChar))
  | c0 :: c1 :: c2 :: c3 :: rest =>
    decodeMap c0 != 255 && decodeMap c1 != 255 && decodeMap c2 != 255 &&
      decodeMap c3 != 255 && validStdBase64 rest
  | _ => false

/-! ## Secure communication -/

/-- Encrypt encrypts a message using the shared key.  Result: the receiver
after the call, the returned message and the returned error (always nil);
`none` is a panic. -/
def Encrypt (s : SecureCommunication) (plaintext : List Nat) (sender : String) :
    Option (SecureCommunication × Message × Option GoError) :=
  let keyBytes := convertKeyToBytes s.sharedKey
  let plaintextBytes := plaintext
  match xorBytes plaintextBytes keyBytes with
  | none => none
  | some cipherBytes =>
    let ciphertext := EncodeToString cipherBytes
    let msg : Message := { Ciphertext := ciphertext, Sender := sender }
    some ({ s with messages := s.messages ++ [msg] }, msg, none)

/-- Decrypt decrypts a message using the shared key.  The receiver is not
written.  Result: the returned string and error; `none` is a panic. -/
def Decrypt (s : SecureCommunication) (msg : Message) :
    Option (List Nat × Option GoError) :=
  let keyBytes := convertKeyToBytes s.sharedKey
  match DecodeString msg.Ciphertext with
  | none => some ([], some GoError.decodeCiphertext)
  | some cipherBytes =>
    match xorBytes cipherBytes keyBytes with
    | none => none
    | some plaintextBytes => some (plaintextBytes, none)

/-! ## Reference notions used in the statements -/

/-- Indices below `n` at which the two participants chose the same basis,
in ascending order. -/
def agreeingIndices (alice bob : Participant) (n : Nat) : List Nat :=
  (List.range n).filter (fun i => alice.bases.getD i 0 == bob.bases.getD i 0)

/-- The byte at index `j` of the XOR of `a` with the key bytes `b` taken
cyclically: `a[j] ^ b[j % len(b)]`. -/
def xorAt (a b : List Nat) (j : Nat) : Nat := a.getD j 0 ^^^ b.getD (j % b.length) 0

/-- The string without its `\r` and `\n` characters. -/
def stripNewlines (s : List Nat) : List Nat := s.filter (fun c => !isNewline c)

/-- The entropy source answers every request. -/
def neverFails (rng : Entropy) : Prop := ∀ k, (rng k).isSome = true

/-- Every element is a byte value. -/
def allBytes (bs : List Nat) : Prop := ∀ x ∈ bs, x < 256

instance (bs : List Nat) : Decidable (allBytes bs) := by
  unfold allBytes
  infer_instance

/-- Number of indices below `i` at which the two participants chose
different bases: the number of requests `simulateTransmission` has made to
the entropy source when it reaches index `i`. -/
def mismatchesBefore (alice bob : Participant) (i : Nat) : Nat :=
  ((List.range i).filter (fun j => alice.bases.getD j 0 != bob.bases.getD j 0)).length

/-- Number of indices among `i, ..., i+k-1` at which the two participants
chose different bases. -/
def mismatchesFrom (alice bob : Participant) (i k : Nat) : Nat :=
  ((List.range' i k).filter (fun j => alice.bases.getD j 0 != bob.bases.getD j 0)).length

/-- Every value the entropy source returns is 0 or 1, the range of
`rand.Int(rand.Reader, big.NewInt(2))`. -/
def bitValued (rng : Entropy) : Prop := ∀ k v, rng k = some v → v = 0 ∨ v = 1

/-- Every element is 0 or 1 (for a basis: `ZBasis` or `XBasis`). -/
def allBits (l : List Int) : Prop := ∀ x ∈ l, x = 0 ∨ x = 1

instance (l : List Int) : Decidable (allBits l) := by
  unfold allBits
  infer_instance

/-- A call made on a `SecureCommunication` value. -/
inductive Call where
  | encrypt (plaintext : List Nat) (sender : String) : Call
  | decrypt (msg : Message) : Call
  deriving DecidableEq, Repr

/-- The receiver after one call that did not panic.  `Encrypt` appends to
the log; the body of `Decrypt` assigns no field of the receiver. -/
def afterCall (s : SecureCommunication) : Call → Option SecureCommunication
  | Call.encrypt plaintext sender =>
    match Encrypt s plaintext sender with
    | none => none
    | some (s2, _, _) => some s2
  | Call.decrypt msg =>
    match Decrypt s msg with
    | none => none
    | some _ => some s

/-- The receiver after a sequence of calls, none of which panicked. -/
def afterCalls (s : SecureCommunication) : List Call → Option SecureCommunication
  | [] => some s
  | call :: rest =>
    match afterCall s call with
    | none => none
    | some s2 => afterCalls s2 rest

end BB84

namespace BB84

/-! ## Sifting -/

theorem siftLoop_eq (alice bob : Participant) (tb : List Int) :
    ∀ (k i : Nat) (acc : List Int),
      i + k ≤ alice.bases.length → i + k ≤ bob.bases.length → i + k ≤ tb.length →
      siftLoop alice bob tb i k acc =
        some (acc ++ ((List.range' i k).filter
          (fun j => alice.bases.getD j 0 == bob.bases.getD j 0)).map (fun j => tb.getD j 0)) := by
  intro k
  induction k with
  | zero => intro i acc _ _ _; simp [siftLoop]
  | succ k ih =>
    intro i acc ha hb ht
    have hia : i < alice.bases.length := by omega
    have hib : i < bob.bases.length := by omega
    have hit : i < tb.length := by omega
    rw [siftLoop, List.getElem?_eq_getElem hia, List.getElem?_eq_getElem hib]
    simp only [List.range'_succ, List.filter_cons]
    have ea : alice.bases.getD i 0 = alice.bases[i] := by
      simp [List.getD_eq_getElem?_getD, List.getElem?_eq_getElem hia]
    have eb : bob.bases.getD i 0 = bob.bases[i] := by
      simp [List.getD_eq_getElem?_getD, List.getElem?_eq_getElem hib]
    have et : tb.getD i 0 = tb[i] := by
      simp [List.getD_eq_getElem?_getD, List.getElem?_eq_getElem hit]
    rw [ea, eb]
    by_cases h : alice.bases[i] = bob.bases[i]
    · simp only [h, if_true, beq_self_eq_true, List.getElem?_eq_getElem hit]
      rw [ih (i + 1) _ (by omega) (by omega) (by omega)]
      simp [et, List.getElem?_eq_getElem hit]
    · have hb2 : (alice.bases[i] == bob.bases[i]) = false := by simpa using h
      simp only [h, if_false, hb2]
      rw [ih (i + 1) _ (by omega) (by omega) (by omega)]
      simp

theorem siftKey_closed (alice bob : Participant) (transmittedBits : List Int) (n : Int)
    (ha : n ≤ alice.bases.length) (hb : n ≤ bob.bases.length)
    (ht : n ≤ transmittedBits.length) :
    siftKey alice bob transmittedBits n =
      some ((agreeingIndices alice bob n.toNat).map (fun i => transmittedBits.getD i 0)) := by
  have h := siftLoop_eq alice bob transmittedBits n.toNat 0 []
    (by omega) (by omega) (by omega)
  rw [siftKey, h, agreeingIndices, List.range_eq_range']
  simp

/-- Claim C2 (sifting correctness): when both basis sequences and the
transmitted bits have at least `n` elements, `siftKey` returns, without a
panic, exactly the transmitted bits at the indices below `n` where the bases
agree, in ascending index order; its length is the number of agreeing
indices. -/
theorem siftKey_correct (alice bob : Participant) (transmittedBits : List Int) (n : Int)
    (ha : n ≤ alice.bases.length) (hb : n ≤ bob.bases.length)
    (ht : n ≤ transmittedBits.length) :
    siftKey alice bob transmittedBits n =
        some ((agreeingIndices alice bob n.toNat).map (fun i => transmittedBits.getD i 0)) ∧
      ∀ key, siftKey alice bob transmittedBits n = some key →
        key.length = (agreeingIndices alice bob n.toNat).length := by
  have h2 := siftKey_closed alice bob transmittedBits n ha hb ht
  refine ⟨h2, ?_⟩
  intro key hk
  rw [h2] at hk
  cases hk
  simp

/-- Witness for C2 on the scenario of the specification. -/
theorem siftKey_correct_witness :
    siftKey ⟨[1, 0, 1, 1], [0, 1, 0, 0], "Alice"⟩ ⟨[], [0, 0, 0, 1], "Bob"⟩ [1, 0, 1, 0] 4 =
      some [1, 1] :=
  (siftKey_correct ⟨[1, 0, 1, 1], [0, 1, 0, 0], "Alice"⟩ ⟨[], [0, 0, 0, 1], "Bob"⟩
    [1, 0, 1, 0] 4 (by decide) (by decide) (by decide)).1

/-! ## Transmission -/

theorem simulateLoop_spec (alice bob : Participant) (rng : Entropy) (hr : neverFails rng) :
    ∀ (k i : Nat) (tb : List Int) (pos : Nat),
      i + k ≤ alice.bits.length → i + k ≤ alice.bases.length →
      i + k ≤ bob.bases.length → i + k ≤ tb.length →
      ∃ tb2 pos2, simulateLoop alice bob rng i k tb pos = some (tb2, pos2) ∧
        tb2.length = tb.length ∧
        (∀ j, j < i → tb2[j]? = tb[j]?) ∧
        (∀ j, i ≤ j → j < i + k → alice.bases.getD j 0 = bob.bases.getD j 0 →
          tb2[j]? = alice.bits[j]?) := by
  intro k
  induction k with
  | zero =>
    intro i tb pos _ _ _ _
    refine ⟨tb, pos, by simp [simulateLoop], rfl, fun _ _ => rfl, ?_⟩
    intro j h1 h2; omega
  | succ k ih =>
    intro i tb pos hbits ha hb ht
    have hia : i < alice.bases.length := by omega
    have hib : i < bob.bases.length := by omega
    have hibit : i < alice.bits.length := by omega
    have hit : i < tb.length := by omega
    have ea : alice.bases.getD i 0 = alice.bases[i] := by
      simp [List.getD_eq_getElem?_getD, List.getElem?_eq_getElem hia]
    have eb : bob.bases.getD i 0 = bob.bases[i] := by
      simp [List.getD_eq_getElem?_getD, List.getElem?_eq_getElem hib]
    rw [simulateLoop, List.getElem?_eq_getElem hia, List.getElem?_eq_getElem hib]
    by_cases h : alice.bases[i] = bob.bases[i]
    · simp only [h, if_true, List.getElem?_eq_getElem hibit]
      obtain ⟨tb2, pos2, h1, h2, h3, h4⟩ :=
        ih (i + 1) (tb.set i alice.bits[i]) pos (by omega) (by omega) (by omega)
          (by simp; omega)
      refine ⟨tb2, pos2, h1, by simpa using h2, ?_, ?_⟩
      · intro j hj
        rw [h3 j (by omega), List.getElem?_set_ne (by omega)]
      · intro j hj1 hj2 hj3
        by_cases hji : j = i
        · subst hji
          rw [h3 j (by omega), List.getElem?_set_self hit, List.getElem?_eq_getElem hibit]
        · exact h4 j (by omega) (by omega) hj3
    · simp only [h, if_false]
      have hsome := hr pos
      cases hrp : rng pos with
      | none => rw [hrp] at hsome; cases hsome
      | some r =>
        simp only []
        obtain ⟨tb2, pos2, h1, h2, h3, h4⟩ :=
          ih (i + 1) (tb.set i r) (pos + 1) (by omega) (by omega) (by omega)
            (by simp; omega)
        refine ⟨tb2, pos2, h1, by simpa using h2, ?_, ?_⟩
        · intro j hj
          rw [h3 j (by omega), List.getElem?_set_ne (by omega)]
        · intro j hj1 hj2 hj3
          by_cases hji : j = i
          · subst hji
            rw [ea, eb] at hj3
            exact absurd hj3 h
          · exact h4 j (by omega) (by omega) hj3

theorem simulateTransmission_spec (q : QuantumChannel) (alice bob : Participant) (n : Int)
    (rng : Entropy) (pos : Nat) (hn : 0 ≤ n) (hr : neverFails rng)
    (hbits : n ≤ alice.bits.length) (ha : n ≤ alice.bases.length)
    (hb : n ≤ bob.bases.length) :
    ∃ tb pos2, simulateTransmission q alice bob n rng pos = some (tb, pos2) ∧
      (tb.length : Int) = n ∧
      ∀ i : Nat, (i : Int) < n → alice.bases.getD i 0 = bob.bases.getD i 0 →
        tb[i]? = alice.bits[i]? := by
  obtain ⟨tb, pos2, h1, h2, _, h4⟩ :=
    simulateLoop_spec alice bob rng hr n.toNat 0 (List.replicate n.toNat 0) pos
      (by omega) (by omega) (by omega) (by simp)
  refine ⟨tb, pos2, ?_, ?_, ?_⟩
  · rw [simulateTransmission, if_neg (by omega), h1]
  · rw [h2]; simp; omega
  · intro i hi hag
    exact h4 i (by omega) (by omega) hag

theorem sift_simulate_eq (q : QuantumChannel) (alice bob : Participant) (n : Int)
    (rng : Entropy) (pos : Nat) (hn : 0 ≤ n) (hr : neverFails rng)
    (hbits : alice.bits.length = n) (ha : alice.bases.length = n)
    (hb : bob.bases.length = n) :
    ∃ tb pos2, simulateTransmission q alice bob n rng pos = some (tb, pos2) ∧
      siftKey alice bob tb n =
        some ((agreeingIndices alice bob n.toNat).map (fun i => alice.bits.getD i 0)) := by
  obtain ⟨tb, pos2, h1, h2, h3⟩ :=
    simulateTransmission_spec q alice bob n rng pos hn hr (by omega) (by omega) (by omega)
  refine ⟨tb, pos2, h1, ?_⟩
  rw [(siftKey_closed alice bob tb n (by omega) (by omega) (by omega))]
  congr 1
  apply List.map_congr_left
  intro i hi
  simp only [agreeingIndices, List.mem_filter, List.mem_range, beq_iff_eq] at hi
  simp only [List.getD_eq_getElem?_getD]
  rw [h3 i (by omega) hi.2]

/-- Claim C3 (transmission agreement): for `n ≥ 0`, participants whose bits
and bases have at least `n` elements and an entropy source that answers,
`simulateTransmission` returns a sequence of length `n` whose value at every
index `i < n` with agreeing bases is Alice's bit at `i`. -/
theorem simulateTransmission_agreement (q : QuantumChannel) (alice bob : Participant)
    (n : Int) (rng : Entropy) (pos : Nat) (hn : 0 ≤ n) (hr : neverFails rng)
    (hbits : n ≤ alice.bits.length) (ha : n ≤ alice.bases.length)
    (hb : n ≤ bob.bases.length) :
    ∃ tb pos2, simulateTransmission q alice bob n rng pos = some (tb, pos2) ∧
      (tb.length : Int) = n ∧
      ∀ i : Nat, (i : Int) < n → alice.bases.getD i 0 = bob.bases.getD i 0 →
        tb[i]? = alice.bits[i]? ∧ tb.getD i 0 = alice.bits.getD i 0 := by
  obtain ⟨tb, pos2, h1, h2, h3⟩ :=
    simulateTransmission_spec q alice bob n rng pos hn hr hbits ha hb
  refine ⟨tb, pos2, h1, h2, ?_⟩
  intro i hi hag
  refine ⟨h3 i hi hag, ?_⟩
  simp only [List.getD_eq_getElem?_getD, h3 i hi hag]

/-- Witness for C3: the scenario of the specification with every draw
equal to 0. -/
theorem simulateTransmission_agreement_witness :
    ∃ tb pos2, simulateTransmission ⟨[]⟩ ⟨[1, 0, 1, 1], [0, 1, 0, 0], "Alice"⟩
        ⟨[], [0, 0, 0, 1], "Bob"⟩ 4 (fun _ => some 0) 0 = some (tb, pos2) ∧
      (tb.length : Int) = 4 ∧
      ∀ i : Nat, (i : Int) < 4 →
        (⟨[1, 0, 1, 1], [0, 1, 0, 0], "Alice"⟩ : Participant).bases.getD i 0 =
          (⟨[], [0, 0, 0, 1], "Bob"⟩ : Participant).bases.getD i 0 →
        tb[i]? = (⟨[1, 0, 1, 1], [0, 1, 0, 0], "Alice"⟩ : Participant).bits[i]? ∧
          tb.getD i 0 = (⟨[1, 0, 1, 1], [0, 1, 0, 0], "Alice"⟩ : Participant).bits.getD i 0 :=
  simulateTransmission_agreement ⟨[]⟩ ⟨[1, 0, 1, 1], [0, 1, 0, 0], "Alice"⟩
    ⟨[], [0, 0, 0, 1], "Bob"⟩ 4 (fun _ => some 0) 0 (by decide) (fun _ => rfl)
    (by decide) (by decide) (by decide)

/-- Claim C4 (end-to-end key): for populated participants of length `n` and
any two entropy sources that answer, sifting the output of
`simulateTransmission` gives, in both executions, the list of Alice's bits
at the agreeing indices in ascending order; on the scenario of the
specification the shared key is `[1,1]` whatever the draws are. -/
theorem sharedKey_end_to_end (q : QuantumChannel) (alice bob : Participant) (n : Int)
    (rng1 rng2 : Entropy) (pos1 pos2 : Nat) (hn : 0 ≤ n)
    (hr1 : neverFails rng1) (hr2 : neverFails rng2)
    (hbits : alice.bits.length = n) (ha : alice.bases.length = n)
    (hb : bob.bases.length = n) :
    (∃ tb1 p1 tb2 p2,
      simulateTransmission q alice bob n rng1 pos1 = some (tb1, p1) ∧
      simulateTransmission q alice bob n rng2 pos2 = some (tb2, p2) ∧
      siftKey alice bob tb1 n =
        some ((agreeingIndices alice bob n.toNat).map (fun i => alice.bits.getD i 0)) ∧
      siftKey alice bob tb2 n = siftKey alice bob tb1 n) ∧
    (∃ tb p, simulateTransmission q ⟨[1, 0, 1, 1], [ZBasis, XBasis, ZBasis, ZBasis], "Alice"⟩
        ⟨[], [ZBasis, ZBasis, ZBasis, XBasis], "Bob"⟩ 4 rng1 pos1 = some (tb, p) ∧
      siftKey ⟨[1, 0, 1, 1], [ZBasis, XBasis, ZBasis, ZBasis], "Alice"⟩
        ⟨[], [ZBasis, ZBasis, ZBasis, XBasis], "Bob"⟩ tb 4 = some [1, 1]) := by
  constructor
  · obtain ⟨tb1, p1, h1, h2⟩ := sift_simulate_eq q alice bob n rng1 pos1 hn hr1 hbits ha hb
    obtain ⟨tb2, p2, h3, h4⟩ := sift_simulate_eq q alice bob n rng2 pos2 hn hr2 hbits ha hb
    exact ⟨tb1, p1, tb2, p2, h1, h3, h2, by rw [h4, h2]⟩
  · obtain ⟨tb, p, h1, h2⟩ := sift_simulate_eq q
      ⟨[1, 0, 1, 1], [ZBasis, XBasis, ZBasis, ZBasis], "Alice"⟩
      ⟨[], [ZBasis, ZBasis, ZBasis, XBasis], "Bob"⟩ 4 rng1 pos1 (by decide) hr1
      (by decide) (by decide) (by decide)
    refine ⟨tb, p, h1, ?_⟩
    rw [h2]
    decide

/-- Witness for C4: the scenario of the specification, run once with every
draw equal to 0 and once with every draw equal to 1. -/
theorem sharedKey_end_to_end_witness :
    (∃ tb1 p1 tb2 p2,
      simulateTransmission ⟨[]⟩ ⟨[1, 0, 1, 1], [0, 1, 0, 0], "Alice"⟩
        ⟨[], [0, 0, 0, 1], "Bob"⟩ 4 (fun _ => some 0) 0 = some (tb1, p1) ∧
      simulateTransmission ⟨[]⟩ ⟨[1, 0, 1, 1], [0, 1, 0, 0], "Alice"⟩
        ⟨[], [0, 0, 0, 1], "Bob"⟩ 4 (fun _ => some 1) 0 = some (tb2, p2) ∧
      siftKey ⟨[1, 0, 1, 1], [0, 1, 0, 0], "Alice"⟩ ⟨[], [0, 0, 0, 1], "Bob"⟩ tb1 4 =
        some ((agreeingIndices ⟨[1, 0, 1, 1], [0, 1, 0, 0], "Alice"⟩
          ⟨[], [0, 0, 0, 1], "Bob"⟩ (4 : Int).toNat).map
            (fun i => (⟨[1, 0, 1, 1], [0, 1, 0, 0], "Alice"⟩ : Participant).bits.getD i 0)) ∧
      siftKey ⟨[1, 0, 1, 1], [0, 1, 0, 0], "Alice"⟩ ⟨[], [0, 0, 0, 1], "Bob"⟩ tb2 4 =
        siftKey ⟨[1, 0, 1, 1], [0, 1, 0, 0], "Alice"⟩ ⟨[], [0, 0, 0, 1], "Bob"⟩ tb1 4) :=
  (sharedKey_end_to_end ⟨[]⟩ ⟨[1, 0, 1, 1], [0, 1, 0, 0], "Alice"⟩
    ⟨[], [0, 0, 0, 1], "Bob"⟩ 4 (fun _ => some 0) (fun _ => some 1) 0 0 (by decide)
    (fun _ => rfl) (fun _ => rfl) (by decide) (by decide) (by decide)).1

/-! ## Key packing -/

theorem getD_set_nat (l : List Nat) (m j v : Nat) (hm : m < l.length) :
    (l.set m v).getD j 0 = if m = j then v else l.getD j 0 := by
  simp only [List.getD_eq_getElem?_getD, List.getElem?_set]
  by_cases h : m = j
  · subst h; simp [hm]
  · simp [h]

theorem convertKeyLoop_spec (key : List Int) :
    ∀ (k i : Nat) (bytes : List Nat),
      (∀ j, bytes.getD j 0 < 256) →
      (∀ j b, b < 8 → (bytes.getD j 0).testBit (7 - b) =
        decide (8 * j + b < i ∧ key.getD (8 * j + b) 0 = 1)) →
      i + k ≤ 8 * bytes.length →
      (convertKeyLoop key i k bytes).length = bytes.length ∧
      (∀ j, (convertKeyLoop key i k bytes).getD j 0 < 256) ∧
      (∀ j b, b < 8 → ((convertKeyLoop key i k bytes).getD j 0).testBit (7 - b) =
        decide (8 * j + b < i + k ∧ key.getD (8 * j + b) 0 = 1)) := by
  intro k
  induction k with
  | zero => intro i bytes h1 h2 _; exact ⟨rfl, h1, by simpa using h2⟩
  | succ k ih =>
    intro i bytes h1 h2 hlen
    have hm : i / 8 < bytes.length := by omega
    rw [convertKeyLoop]
    by_cases hk : key.getD i 0 = 1
    · rw [if_pos hk]
      have hor : bytes.getD (i / 8) 0 ||| 1 <<< (7 - i % 8) < 256 := by
        have h256 : (256 : Nat) = 2 ^ 8 := by norm_num
        rw [h256, Nat.one_shiftLeft]
        apply Nat.or_lt_two_pow
        · rw [← h256]; exact h1 _
        · apply Nat.pow_lt_pow_right (by norm_num); omega
      obtain ⟨r1, r2, r3⟩ := ih (i + 1)
        (bytes.set (i / 8) ((bytes.getD (i / 8) 0 ||| (1 <<< (7 - i % 8))) % 256))
        (by
          intro j
          rw [getD_set_nat _ _ _ _ hm]
          split
          · exact Nat.mod_lt _ (by norm_num)
          · exact h1 j)
        (by
          intro j b hb
          rw [getD_set_nat _ _ _ _ hm]
          by_cases hj : i / 8 = j
          · rw [if_pos hj, Nat.mod_eq_of_lt hor, Nat.testBit_or, Nat.one_shiftLeft,
              Nat.testBit_two_pow, h2 (i / 8) b hb, Bool.eq_iff_iff]
            subst hj
            simp only [Bool.or_eq_true, decide_eq_true_eq]
            constructor
            · rintro (⟨ha, hb2⟩ | hc)
              · exact ⟨by omega, hb2⟩
              · have : 8 * (i / 8) + b = i := by omega
                rw [this]; exact ⟨by omega, hk⟩
            · rintro ⟨ha, hb2⟩
              by_cases hlt : 8 * (i / 8) + b < i
              · exact Or.inl ⟨hlt, hb2⟩
              · right; omega
          · rw [if_neg hj, h2 j b hb, Bool.eq_iff_iff]
            simp only [decide_eq_true_eq]
            constructor
            · rintro ⟨ha, hb2⟩; exact ⟨by omega, hb2⟩
            · rintro ⟨ha, hb2⟩; exact ⟨by omega, hb2⟩)
        (by simp; omega)
      refine ⟨by simpa using r1, r2, ?_⟩
      intro j b hb
      rw [r3 j b hb]
      simp [Nat.add_assoc, Nat.add_comm 1 k]
    · rw [if_neg hk]
      obtain ⟨r1, r2, r3⟩ := ih (i + 1) bytes h1
        (by
          intro j b hb
          rw [h2 j b hb, Bool.eq_iff_iff]
          simp only [decide_eq_true_eq]
          constructor
          · rintro ⟨ha, hb2⟩; exact ⟨by omega, hb2⟩
          · rintro ⟨ha, hb2⟩
            refine ⟨?_, hb2⟩
            by_contra hc
            have : 8 * j + b = i := by omega
            rw [this] at hb2
            exact hk hb2)
        (by omega)
      refine ⟨r1, r2, ?_⟩
      intro j b hb
      rw [r3 j b hb]
      simp [Nat.add_assoc, Nat.add_comm 1 k]

theorem getD_replicate_zero (n j : Nat) : (List.replicate n 0).getD j 0 = 0 := by
  simp only [List.getD_eq_getElem?_getD, List.getElem?_replicate]
  split <;> rfl

theorem convertKeyToBytes_spec (key : List Int) :
    (convertKeyToBytes key).length = (key.length + 7) / 8 ∧
    (∀ j, (convertKeyToBytes key).getD j 0 < 256) ∧
    (∀ j b, b < 8 → ((convertKeyToBytes key).getD j 0).testBit (7 - b) =
      decide (8 * j + b < key.length ∧ key.getD (8 * j + b) 0 = 1)) := by
  have h := convertKeyLoop_spec key key.length 0 (List.replicate ((key.length + 7) / 8) 0)
    (by intro j; rw [getD_replicate_zero]; norm_num)
    (by intro j b _; rw [getD_replicate_zero]; simp)
    (by simp; omega)
  simpa [convertKeyToBytes] using h

theorem convertKeyToBytes_allBytes (key : List Int) : allBytes (convertKeyToBytes key) := by
  intro x hx
  obtain ⟨i, hi, rfl⟩ := List.getElem_of_mem hx
  have h := (convertKeyToBytes_spec key).2.1 i
  simpa [List.getD_eq_getElem?_getD, List.getElem?_eq_getElem hi] using h

theorem convertKeyToBytes_length_pos (key : List Int) (hk : key ≠ []) :
    0 < (convertKeyToBytes key).length := by
  rw [(convertKeyToBytes_spec key).1]
  have : 0 < key.length := List.length_pos.mpr hk
  omega

/-- Claim C5 (key packing): for a key over {0,1}, `convertKeyToBytes`
returns `ceil(len(key)/8)` bytes, and bit `b` (0 = most significant) of byte
`j` is `key[8*j+b]` when that index is in range and 0 otherwise. -/
theorem convertKeyToBytes_packing (key : List Int) (hk : ∀ x ∈ key, x = 0 ∨ x = 1) :
    (convertKeyToBytes key).length = (key.length + 7) / 8 ∧
    (key.length ≤ 8 * (convertKeyToBytes key).length ∧
      8 * (convertKeyToBytes key).length < key.length + 8) ∧
    (∀ j, (convertKeyToBytes key).getD j 0 < 256) ∧
    (∀ j b, b < 8 →
      (if ((convertKeyToBytes key).getD j 0).testBit (7 - b) then (1 : Int) else 0) =
        if 8 * j + b < key.length then key.getD (8 * j + b) 0 else 0) := by
  obtain ⟨h1, h2, h3⟩ := convertKeyToBytes_spec key
  refine ⟨h1, by omega, h2, ?_⟩
  intro j b hb
  rw [h3 j b hb]
  by_cases hlt : 8 * j + b < key.length
  · have hmem : key.getD (8 * j + b) 0 ∈ key := by
      simp only [List.getD_eq_getElem?_getD, List.getElem?_eq_getElem hlt, Option.getD_some]
      exact List.getElem_mem _
    rw [if_pos hlt]
    rcases hk _ hmem with h0 | h1
    · rw [h0]; simp [hlt]
    · rw [h1]; simp [hlt]
  · simp [hlt]

/-- Witness for C5: the ten-bit key 1100000011 packs to the two bytes
`0xC0 0xC0`. -/
theorem convertKeyToBytes_packing_witness :
    (convertKeyToBytes [1, 1, 0, 0, 0, 0, 0, 0, 1, 1]).length = (10 + 7) / 8 ∧
      convertKeyToBytes [1, 1, 0, 0, 0, 0, 0, 0, 1, 1] = [192, 192] :=
  ⟨(convertKeyToBytes_packing [1, 1, 0, 0, 0, 0, 0, 0, 1, 1] (by decide)).1, by decide⟩

/-! ## XOR -/

theorem xorLoop_spec (a b : List Nat) (hb : b.length ≠ 0) :
    ∀ (k i : Nat) (result : List Nat), i + k ≤ result.length →
      ∃ r, xorLoop a b i k result = some r ∧ r.length = result.length ∧
        ∀ j, r[j]? = if i ≤ j ∧ j < i + k then some (xorAt a b j) else result[j]? := by
  intro k
  induction k with
  | zero =>
    intro i result _
    refine ⟨result, by simp [xorLoop], rfl, ?_⟩
    intro j
    rw [if_neg (by omega)]
  | succ k ih =>
    intro i result hlen
    obtain ⟨r, h1, h2, h3⟩ := ih (i + 1) (result.set i (xorAt a b i)) (by simp; omega)
    refine ⟨r, ?_, by simpa using h2, ?_⟩
    · rw [xorLoop, if_neg hb]; exact h1
    · intro j
      rw [h3 j, List.getElem?_set]
      by_cases hji : i = j
      · subst hji
        rw [if_neg (by omega), if_pos rfl, if_pos (by omega), if_pos (by omega)]
      · rw [if_neg hji]
        by_cases hc : i + 1 ≤ j ∧ j < i + 1 + k
        · rw [if_pos hc, if_pos (by omega)]
        · rw [if_neg hc, if_neg (by omega)]

theorem xorBytes_eq (a b : List Nat) (hb : b.length ≠ 0) :
    xorBytes a b = some ((List.range a.length).map (xorAt a b)) := by
  obtain ⟨r, h1, h2, h3⟩ := xorLoop_spec a b hb a.length 0 (List.replicate a.length 0)
    (by simp)
  rw [xorBytes, h1]
  congr 1
  apply List.ext_getElem?
  intro j
  rw [h3 j, List.getElem?_map]
  by_cases hj : j < a.length
  · rw [if_pos (by omega), List.getElem?_range hj]; rfl
  · rw [if_neg (by omega), List.getElem?_replicate, if_neg hj,
      List.getElem?_eq_none (by simpa using hj)]
    rfl

theorem xorBytes_involutive (a b : List Nat) (hb : b.length ≠ 0) :
    ∃ c, xorBytes a b = some c ∧ xorBytes c b = some a := by
  refine ⟨_, xorBytes_eq a b hb, ?_⟩
  rw [xorBytes_eq _ b hb]
  congr 1
  apply List.ext_getElem?
  intro j
  simp only [List.length_map, List.length_range, List.getElem?_map]
  by_cases hj : j < a.length
  · rw [List.getElem?_range hj, List.getElem?_eq_getElem hj]
    simp only [Option.map_some', xorAt, List.getD_eq_getElem?_getD, List.getElem?_map,
      List.getElem?_range hj, List.getElem?_eq_getElem hj, Option.getD_some]
    rw [Nat.xor_cancel_right]
  · rw [List.getElem?_eq_none (by simpa using hj), List.getElem?_eq_none (by simpa using hj)]
    rfl

theorem xorBytes_allBytes (a b c : List Nat) (ha : allBytes a) (hkb : allBytes b)
    (hb : b.length ≠ 0) (h : xorBytes a b = some c) : allBytes c := by
  rw [xorBytes_eq a b hb] at h
  cases h
  intro x hx
  simp only [List.mem_map, List.mem_range] at hx
  obtain ⟨j, hj, rfl⟩ := hx
  have h256 : (256 : Nat) = 2 ^ 8 := by norm_num
  rw [xorAt, h256]
  apply Nat.xor_lt_two_pow
  · rw [← h256, List.getD_eq_getElem?_getD, List.getElem?_eq_getElem hj]
    exact ha _ (List.getElem_mem _)
  · have hlt : j % b.length < b.length := Nat.mod_lt _ (by omega)
    rw [← h256, List.getD_eq_getElem?_getD, List.getElem?_eq_getElem hlt]
    exact hkb _ (List.getElem_mem _)

/-! ## Base64 -/

theorem decodeMap_encodeStd : ∀ v, v < 64 → decodeMap (encodeStd v) = v := by
  decide

theorem decodeMap_encodeStd_ne (v : Nat) (hv : v < 64) : decodeMap (encodeStd v) ≠ 255 := by
  rw [decodeMap_encodeStd v hv]; omega

theorem decodeLoop_quantum (c0 c1 c2 c3 : Nat) (rest : List Nat)
    (h0 : decodeMap c0 ≠ 255) (h1 : decodeMap c1 ≠ 255) (h2 : decodeMap c2 ≠ 255)
    (h3 : decodeMap c3 ≠ 255) :
    decodeLoop (c0 :: c1 :: c2 :: c3 :: rest) [] =
      match decodeLoop rest [] with
      | none => none
      | some out =>
        some (quantumBytes (decodeMap c0) (decodeMap c1) (decodeMap c2) (decodeMap c3) ++ out) := by
  simp [decodeLoop, h0, h1, h2, h3]

theorem decodeLoop_pad1 (c0 c1 c2 : Nat)
    (h0 : decodeMap c0 ≠ 255) (h1 : decodeMap c1 ≠ 255) (h2 : decodeMap c2 ≠ 255) :
    decodeLoop [c0, c1, c2, padChar] [] =
      some ((quantumBytes (decodeMap c0) (decodeMap c1) (decodeMap c2) 0).take 2) := by
  have hp : decodeMap padChar = 255 := by decide
  have hn : isNewline padChar = false := by decide
  simp [decodeLoop, h0, h1, h2, hp, hn, skipNewlines]

theorem decodeLoop_pad2 (c0 c1 : Nat)
    (h0 : decodeMap c0 ≠ 255) (h1 : decodeMap c1 ≠ 255) :
    decodeLoop [c0, c1, padChar, padChar] [] =
      some ((quantumBytes (decodeMap c0) (decodeMap c1) 0 0).take 1) := by
  have hp : decodeMap padChar = 255 := by decide
  have hn : isNewline padChar = false := by decide
  simp [decodeLoop, h0, h1, hp, hn, skipNewlines]

theorem quantumBytes_encode (b0 b1 b2 : Nat) (h0 : b0 < 256) (h1 : b1 < 256) (h2 : b2 < 256) :
    quantumBytes ((b0 * 65536 + b1 * 256 + b2) / 262144 % 64)
      ((b0 * 65536 + b1 * 256 + b2) / 4096 % 64)
      ((b0 * 65536 + b1 * 256 + b2) / 64 % 64)
      ((b0 * 65536 + b1 * 256 + b2) % 64) = [b0, b1, b2] := by
  simp only [quantumBytes, List.cons.injEq, and_true]
  refine ⟨?_, ?_, ?_⟩ <;> omega

theorem decode_encode : ∀ (n : Nat) (bs : List Nat), bs.length = n → allBytes bs →
    DecodeString (EncodeToString bs) = some bs := by
  intro n
  induction n using Nat.strong_induction_on with
  | _ n ih =>
    intro bs hlen hb
    match bs, hlen, hb with
    | [], _, _ => simp [EncodeToString, DecodeString, decodeLoop]
    | [b0], _, hb =>
      have h0 : b0 < 256 := hb b0 (by simp)
      rw [EncodeToString, DecodeString]
      rw [decodeLoop_pad2 _ _ (decodeMap_encodeStd_ne _ (Nat.mod_lt _ (by norm_num)))
        (decodeMap_encodeStd_ne _ (Nat.mod_lt _ (by norm_num))),
        decodeMap_encodeStd _ (Nat.mod_lt _ (by norm_num)),
        decodeMap_encodeStd _ (Nat.mod_lt _ (by norm_num))]
      simp only [quantumBytes, List.take, Option.some.injEq, List.cons.injEq, and_true]
      omega
    | [b0, b1], _, hb =>
      have h0 : b0 < 256 := hb b0 (by simp)
      have h1 : b1 < 256 := hb b1 (by simp)
      rw [EncodeToString, DecodeString]
      rw [decodeLoop_pad1 _ _ _ (decodeMap_encodeStd_ne _ (Nat.mod_lt _ (by norm_num)))
        (decodeMap_encodeStd_ne _ (Nat.mod_lt _ (by norm_num)))
        (decodeMap_encodeStd_ne _ (Nat.mod_lt _ (by norm_num))),
        decodeMap_encodeStd _ (Nat.mod_lt _ (by norm_num)),
        decodeMap_encodeStd _ (Nat.mod_lt _ (by norm_num)),
        decodeMap_encodeStd _ (Nat.mod_lt _ (by norm_num))]
      simp only [quantumBytes, List.take, Option.some.injEq, List.cons.injEq, and_true]
      constructor <;> omega
    | b0 :: b1 :: b2 :: rest, hlen, hb =>
      have h0 : b0 < 256 := hb b0 (by simp)
      have h1 : b1 < 256 := hb b1 (by simp)
      have h2 : b2 < 256 := hb b2 (by simp)
      have hrest : allBytes rest := fun x hx => hb x (by simp [hx])
      have ihr := ih rest.length (by simp at hlen; omega) rest rfl hrest
      rw [DecodeString] at ihr
      rw [EncodeToString, DecodeString]
      rw [decodeLoop_quantum _ _ _ _ _ (decodeMap_encodeStd_ne _ (Nat.mod_lt _ (by norm_num)))
        (decodeMap_encodeStd_ne _ (Nat.mod_lt _ (by norm_num)))
        (decodeMap_encodeStd_ne _ (Nat.mod_lt _ (by norm_num)))
        (decodeMap_encodeStd_ne _ (Nat.mod_lt _ (by norm_num))),
        decodeMap_encodeStd _ (Nat.mod_lt _ (by norm_num)),
        decodeMap_encodeStd _ (Nat.mod_lt _ (by norm_num)),
        decodeMap_encodeStd _ (Nat.mod_lt _ (by norm_num)),
        decodeMap_encodeStd _ (Nat.mod_lt _ (by norm_num)), ihr,
        quantumBytes_encode b0 b1 b2 h0 h1 h2]
      rfl

/-! ## Random sequence generation -/

theorem generateLoop_frame (rng : Entropy) (isBit : Bool) :
    ∀ (k i : Nat) (p : Participant) (pos : Nat),
      (generateLoop rng isBit i k p pos).1.bits.length = p.bits.length ∧
      (generateLoop rng isBit i k p pos).1.bases.length = p.bases.length ∧
      (generateLoop rng isBit i k p pos).1.name = p.name ∧
      (isBit = true → (generateLoop rng isBit i k p pos).1.bases = p.bases) ∧
      (isBit = false → (generateLoop rng isBit i k p pos).1.bits = p.bits) := by
  intro k
  induction k with
  | zero => intro i p pos; simp [generateLoop]
  | succ k ih =>
    intro i p pos
    rw [generateLoop]
    cases hrp : rng pos with
    | none => simp
    | some num =>
      cases isBit with
      | true =>
        obtain ⟨h1, h2, h3, h4, _⟩ := ih (i + 1) { p with bits := p.bits.set i num } (pos + 1)
        simp only [if_true]
        exact ⟨by simpa using h1, h2, h3, fun _ => h4 rfl, fun h => by cases h⟩
      | false =>
        obtain ⟨h1, h2, h3, _, h5⟩ := ih (i + 1) { p with bases := p.bases.set i num } (pos + 1)
        simp only [Bool.false_eq_true, if_false]
        exact ⟨h1, by simpa using h2, h3, fun h => h.elim, fun _ => h5 rfl⟩

theorem generateLoop_ok (rng : Entropy) (hr : neverFails rng) (isBit : Bool) :
    ∀ (k i : Nat) (p : Participant) (pos : Nat),
      (generateLoop rng isBit i k p pos).2 = (pos + k, none) := by
  intro k
  induction k with
  | zero => intro i p pos; simp [generateLoop]
  | succ k ih =>
    intro i p pos
    rw [generateLoop]
    have hsome := hr pos
    cases hrp : rng pos with
    | none => rw [hrp] at hsome; cases hsome
    | some num =>
      cases isBit with
      | true => simp only [if_true]; rw [ih]; congr 1; omega
      | false => simp only [Bool.false_eq_true, if_false]; rw [ih]; congr 1; omega

theorem generateRandomSequence_frame (p : Participant) (n : Int) (isBit : Bool)
    (rng : Entropy) (pos : Nat) (p2 : Participant) (pos2 : Nat)
    (h : generateRandomSequence p n isBit rng pos = some (p2, pos2, none)) :
    0 < n ∧ p2.name = p.name ∧
      (isBit = true → (p2.bits.length : Int) = n ∧ p2.bases = p.bases) ∧
      (isBit = false → (p2.bases.length : Int) = n ∧ p2.bits = p.bits) := by
  rw [generateRandomSequence] at h
  by_cases hn : n ≤ 0
  · rw [if_pos hn] at h; cases h
  · rw [if_neg hn] at h
    by_cases hm : maxSliceLen < n.toNat
    · rw [if_pos hm] at h; cases h
    rw [if_neg hm] at h
    simp only [Option.some.injEq] at h
    have hp : (generateLoop rng isBit 0 n.toNat
        (if isBit = true then { p with bits := List.replicate n.toNat 0 }
          else { p with bases := List.replicate n.toNat 0 }) pos).1 = p2 := by rw [h]
    obtain ⟨h1, h2, h3, h4, h5⟩ := generateLoop_frame rng isBit n.toNat 0
      (if isBit = true then { p with bits := List.replicate n.toNat 0 }
          else { p with bases := List.replicate n.toNat 0 }) pos
    rw [hp] at h1 h2 h3 h4 h5
    refine ⟨by omega, ?_, ?_, ?_⟩
    · rw [h3]; split <;> rfl
    · intro hb
      subst hb
      simp only [if_true, List.length_replicate] at h1
      rw [if_pos rfl] at h4
      exact ⟨by omega, h4 rfl⟩
    · intro hb
      subst hb
      rw [if_neg (by simp)] at h2 h5
      simp only [List.length_replicate] at h2
      exact ⟨by omega, h5 rfl⟩

theorem generateRandomSequence_ok (p : Participant) (n : Int) (isBit : Bool)
    (rng : Entropy) (pos : Nat) (hr : neverFails rng) (hn : 0 < n)
    (hm : n ≤ maxSliceLen) :
    ∃ p2, generateRandomSequence p n isBit rng pos = some (p2, pos + n.toNat, none) := by
  rw [generateRandomSequence, if_neg (by omega), if_neg (by omega)]
  simp only []
  refine ⟨(generateLoop rng isBit 0 n.toNat
        (if isBit = true then { p with bits := List.replicate n.toNat 0 }
          else { p with bases := List.replicate n.toNat 0 }) pos).1, ?_⟩
  congr 1
  apply Prod.ext
  · rfl
  · exact generateLoop_ok rng hr isBit n.toNat 0 _ pos

theorem generateRandomSequence_nonpos (p : Participant) (n : Int) (isBit : Bool)
    (rng : Entropy) (pos : Nat) (hn : n ≤ 0) :
    generateRandomSequence p n isBit rng pos =
      some (p, pos, some GoError.nonPositiveCount) := by
  rw [generateRandomSequence, if_pos hn]

theorem generateRandomSequence_overlong (p : Participant) (n : Int) (isBit : Bool)
    (rng : Entropy) (pos : Nat) (hm : (maxSliceLen : Int) < n) :
    generateRandomSequence p n isBit rng pos = none := by
  have h0 : (0 : Int) ≤ maxSliceLen := Int.ofNat_nonneg _
  rw [generateRandomSequence, if_neg (by omega), if_pos (by omega)]


/-! ## Coordinator -/

theorem simulateLoop_length (alice bob : Participant) (rng : Entropy) :
    ∀ (k i : Nat) (tb : List Int) (pos : Nat) (tb2 : List Int) (pos2 : Nat),
      simulateLoop alice bob rng i k tb pos = some (tb2, pos2) → tb2.length = tb.length := by
  intro k
  induction k with
  | zero =>
    intro i tb pos tb2 pos2 h
    simp only [simulateLoop, Option.some.injEq, Prod.mk.injEq] at h
    rw [← h.1]
  | succ k ih =>
    intro i tb pos tb2 pos2 h
    rw [simulateLoop] at h
    split at h
    · cases h
    · split at h
      · cases h
      · split at h
        · split at h
          · cases h
          · have := ih _ _ _ _ _ h
            simpa using this
        · split at h
          · cases h
          · have := ih _ _ _ _ _ h
            simpa using this

theorem siftLoop_length (alice bob : Participant) (tb : List Int) :
    ∀ (k i : Nat) (acc key : List Int),
      siftLoop alice bob tb i k acc = some key → key.length ≤ acc.length + k := by
  intro k
  induction k with
  | zero =>
    intro i acc key h
    simp only [siftLoop, Option.some.injEq] at h
    rw [← h]; omega
  | succ k ih =>
    intro i acc key h
    rw [siftLoop] at h
    split at h
    · cases h
    · split at h
      · cases h
      · split at h
        · split at h
          · cases h
          · have := ih _ _ _ h
            simp at this
            omega
        · have := ih _ _ _ h
          omega

theorem Run_success_lengths (bb84 s : BB84Protocol) (rng : Entropy) (pos pos2 : Nat)
    (h : Run bb84 rng pos = some (s, pos2, none)) :
    0 < bb84.numberOfBits ∧
      (s.alice.bits.length : Int) = bb84.numberOfBits ∧
      (s.alice.bases.length : Int) = bb84.numberOfBits ∧
      (s.bob.bases.length : Int) = bb84.numberOfBits ∧
      (s.channel.transmittedBits.length : Int) = bb84.numberOfBits ∧
      (s.sharedKey.length : Int) ≤ bb84.numberOfBits := by
  rw [Run] at h
  rcases h1 : generateRandomSequence bb84.alice bb84.numberOfBits true rng pos
    with _ | ⟨a1, pos1, e1⟩
  · rw [h1] at h; simp at h
  rw [h1] at h
  cases e1 with
  | some e => simp at h
  | none =>
    simp only [] at h
    rcases h2 : generateRandomSequence a1 bb84.numberOfBits false rng pos1
      with _ | ⟨a2, pos2b, e2⟩
    · rw [h2] at h; simp at h
    rw [h2] at h
    cases e2 with
    | some e => simp at h
    | none =>
      simp only [] at h
      rcases h3 : generateRandomSequence bb84.bob bb84.numberOfBits false rng pos2b
        with _ | ⟨b1, pos3, e3⟩
      · rw [h3] at h; simp at h
      rw [h3] at h
      cases e3 with
      | some e => simp at h
      | none =>
        simp only [] at h
        obtain ⟨hn, _, f1, _⟩ := generateRandomSequence_frame _ _ _ _ _ _ _ h1
        obtain ⟨_, _, _, f2⟩ := generateRandomSequence_frame _ _ _ _ _ _ _ h2
        obtain ⟨_, _, _, f3⟩ := generateRandomSequence_frame _ _ _ _ _ _ _ h3
        have g1 := f1 rfl
        have g2 := f2 rfl
        have g3 := f3 rfl
        cases h4 : simulateTransmission bb84.channel a2 b1 bb84.numberOfBits rng pos3 with
        | none => rw [h4] at h; simp at h
        | some r =>
          obtain ⟨tb, pos4⟩ := r
          rw [h4] at h
          simp only [] at h
          cases h5 : siftKey a2 b1 tb bb84.numberOfBits with
          | none => rw [h5] at h; simp at h
          | some key =>
            rw [h5] at h
            simp only [Option.some.injEq, Prod.mk.injEq] at h
            obtain ⟨hs, _⟩ := h
            subst hs
            rw [simulateTransmission, if_neg (by omega)] at h4
            have l4 := simulateLoop_length _ _ _ _ _ _ _ _ _ h4
            have l5 := siftLoop_length _ _ _ _ _ _ _ h5
            simp only [List.length_replicate, List.length_nil] at l4 l5
            refine ⟨hn, ?_, ?_, ?_, ?_, ?_⟩
            · show (a2.bits.length : Int) = _
              rw [g2.2]; exact g1.1
            · exact g2.1
            · exact g3.1
            · show (tb.length : Int) = _
              omega
            · show (key.length : Int) ≤ _
              omega

theorem Run_ok (bb84 : BB84Protocol) (rng : Entropy) (pos : Nat) (hr : neverFails rng)
    (hn : 0 < bb84.numberOfBits) (hm : bb84.numberOfBits ≤ maxSliceLen) :
    ∃ s pos2, Run bb84 rng pos = some (s, pos2, none) := by
  obtain ⟨a1, h1⟩ := generateRandomSequence_ok bb84.alice _ true rng pos hr hn hm
  obtain ⟨a2, h2⟩ := generateRandomSequence_ok a1 _ false rng
    (pos + bb84.numberOfBits.toNat) hr hn hm
  obtain ⟨b1, h3⟩ := generateRandomSequence_ok bb84.bob _ false rng
    (pos + bb84.numberOfBits.toNat + bb84.numberOfBits.toNat) hr hn hm
  obtain ⟨_, _, f1, _⟩ := generateRandomSequence_frame _ _ _ _ _ _ _ h1
  obtain ⟨_, _, _, f2⟩ := generateRandomSequence_frame _ _ _ _ _ _ _ h2
  obtain ⟨_, _, _, f3⟩ := generateRandomSequence_frame _ _ _ _ _ _ _ h3
  have g1 := f1 rfl
  have g2 := f2 rfl
  have g3 := f3 rfl
  obtain ⟨tb, pos4, h4, h5⟩ := sift_simulate_eq bb84.channel a2 b1 bb84.numberOfBits rng
    (pos + bb84.numberOfBits.toNat + bb84.numberOfBits.toNat + bb84.numberOfBits.toNat)
    (by omega) hr (by rw [g2.2]; exact g1.1) g2.1 g3.1
  rw [Run, h1]
  simp only []
  rw [h2]
  simp only []
  rw [h3]
  simp only []
  rw [h4]
  simp only []
  rw [h5]
  exact ⟨_, _, rfl⟩

theorem Run_nonpos (bb84 : BB84Protocol) (rng : Entropy) (pos : Nat)
    (hn : bb84.numberOfBits ≤ 0) :
    Run bb84 rng pos = some (bb84, pos, some (GoError.aliceBits GoError.nonPositiveCount)) := by
  rw [Run, generateRandomSequence_nonpos _ _ _ _ _ hn]

theorem Run_overlong (bb84 : BB84Protocol) (rng : Entropy) (pos : Nat)
    (hm : (maxSliceLen : Int) < bb84.numberOfBits) : Run bb84 rng pos = none := by
  rw [Run, generateRandomSequence_overlong _ _ _ _ _ hm]

/-! ## Secure communication -/

theorem Encrypt_eq (s : SecureCommunication) (p : List Nat) (sender : String)
    (hk : s.sharedKey ≠ []) :
    Encrypt s p sender =
      some ({ s with messages := s.messages ++
                [{ Ciphertext := EncodeToString
                      ((List.range p.length).map (xorAt p (convertKeyToBytes s.sharedKey))),
                   Sender := sender }] },
            { Ciphertext := EncodeToString
                ((List.range p.length).map (xorAt p (convertKeyToBytes s.sharedKey))),
              Sender := sender }, none) := by
  have hb : (convertKeyToBytes s.sharedKey).length ≠ 0 :=
    Nat.pos_iff_ne_zero.mp (convertKeyToBytes_length_pos _ hk)
  simp only [Encrypt, xorBytes_eq p _ hb]

/-- Claim C1 (round trip): with a non-empty key, `Encrypt` of any plaintext
byte string and sender returns a message with a nil error, and `Decrypt` of
that message returns exactly the plaintext with a nil error. -/
theorem encrypt_decrypt_roundtrip (s : SecureCommunication) (m : List Nat) (sender : String)
    (hk : s.sharedKey ≠ []) (hm : allBytes m) :
    ∃ s2 msg, Encrypt s m sender = some (s2, msg, none) ∧
      Decrypt s2 msg = some (m, none) ∧ Decrypt s msg = some (m, none) := by
  have hb : (convertKeyToBytes s.sharedKey).length ≠ 0 :=
    Nat.pos_iff_ne_zero.mp (convertKeyToBytes_length_pos _ hk)
  obtain ⟨c, hc1, hc2⟩ := xorBytes_involutive m (convertKeyToBytes s.sharedKey) hb
  have hcb : allBytes c :=
    xorBytes_allBytes m _ c hm (convertKeyToBytes_allBytes _) hb hc1
  have hdec := decode_encode c.length c rfl hcb
  refine ⟨{ s with messages := s.messages ++ [⟨EncodeToString c, sender⟩] },
    ⟨EncodeToString c, sender⟩, ?_, ?_, ?_⟩
  · simp only [Encrypt, hc1]
  · simp only [Decrypt, hdec, hc2]
  · simp only [Decrypt, hdec, hc2]

/-- Witness for C1: the two-bit key `[1,1]` and the plaintext "Hi". -/
theorem encrypt_decrypt_roundtrip_witness :
    ∃ s2 msg, Encrypt ⟨[1, 1], []⟩ [72, 105] "Alice" = some (s2, msg, none) ∧
      Decrypt s2 msg = some ([72, 105], none) ∧
      Decrypt ⟨[1, 1], []⟩ msg = some ([72, 105], none) :=
  encrypt_decrypt_roundtrip ⟨[1, 1], []⟩ [72, 105] "Alice" (by decide) (by decide)

/-- Claim C6 (encryption definition): with a non-empty key whose packed
bytes are `k`, `Encrypt(p, sender)` returns a message whose sender is
`sender` and whose ciphertext is the standard base64 encoding of a byte
string `cb` with `len(cb) = len(p)` and `cb[i] = p[i] XOR k[i mod len(k)]` for
every `i < len(p)`. -/
theorem encrypt_definition (s : SecureCommunication) (p : List Nat) (sender : String)
    (hk : s.sharedKey ≠ []) :
    ∃ s2 msg cb, Encrypt s p sender = some (s2, msg, none) ∧
      msg.Sender = sender ∧ msg.Ciphertext = EncodeToString cb ∧
      cb.length = p.length ∧
      ∀ i, i < p.length →
        cb[i]? = some (p.getD i 0 ^^^
          (convertKeyToBytes s.sharedKey).getD (i % (convertKeyToBytes s.sharedKey).length) 0) := by
  refine ⟨_, _, (List.range p.length).map (xorAt p (convertKeyToBytes s.sharedKey)),
    Encrypt_eq s p sender hk, rfl, rfl, by simp, ?_⟩
  intro i hi
  rw [List.getElem?_map, List.getElem?_range hi]
  rfl

/-- Witness for C6: a one-byte packed key wraps over a three-byte
plaintext. -/
theorem encrypt_definition_witness :
    ∃ s2 msg cb, Encrypt ⟨[1, 1], []⟩ [72, 105, 33] "Alice" = some (s2, msg, none) ∧
      msg.Sender = "Alice" ∧ msg.Ciphertext = EncodeToString cb ∧
      cb.length = [72, 105, 33].length ∧
      ∀ i, i < [72, 105, 33].length →
        cb[i]? = some ([72, 105, 33].getD i 0 ^^^
          (convertKeyToBytes [1, 1]).getD (i % (convertKeyToBytes [1, 1]).length) 0) :=
  encrypt_definition ⟨[1, 1], []⟩ [72, 105, 33] "Alice" (by decide)

/-- Claim C7 (failing input): with the empty key that a run with `n = 1`
produces when the two bases differ, `Encrypt` of a non-empty plaintext does
not return: `xorBytes` evaluates `i % len(b)` with `len(b) = 0`. -/
theorem encrypt_empty_key_panics :
    Run (NewBB84Protocol 1) (fun k => if k = 2 then some 1 else some 0) 0 =
        some ({ alice := ⟨[0], [0], "Alice"⟩, bob := ⟨[], [1], "Bob"⟩, sharedKey := [],
                numberOfBits := 1, channel := ⟨[0]⟩, SecureComm := ⟨[], []⟩ }, 4, none) ∧
      convertKeyToBytes [] = [] ∧
      xorBytes [72, 105] [] = none ∧
      Encrypt (InitializeSecureChannel ⟨[], []⟩ []) [72, 105] "Alice" = none := by
  decide

/-- Claim C8 (boundary): with an entropy source that never fails, `Run` on
`NewBB84Protocol(n)` returns an error exactly when `n ≤ 0`.  For `n > 0`
within the slice limit of the runtime it returns nil without a panic; beyond
that limit the first `make` panics.  For `n > 0`, once the three generation
steps have returned, every sequence read by `simulateTransmission` and
`siftKey` has length `n` and both return, so every index access is in range.
For `n = 1` the run succeeds with a shared key of length 0 or 1, and both
lengths occur. -/
theorem Run_boundary (n : Int) (rng : Entropy) (pos : Nat) (hr : neverFails rng) :
    ((∃ s p e, Run (NewBB84Protocol n) rng pos = some (s, p, some e)) ↔ n ≤ 0) ∧
    (0 < n → n ≤ maxSliceLen → ∃ s p, Run (NewBB84Protocol n) rng pos = some (s, p, none)) ∧
    ((maxSliceLen : Int) < n → Run (NewBB84Protocol n) rng pos = none) ∧
    (0 < n → ∀ a1 p1 a2 p2 b1 p3,
      generateRandomSequence (NewBB84Protocol n).alice n true rng pos = some (a1, p1, none) →
      generateRandomSequence a1 n false rng p1 = some (a2, p2, none) →
      generateRandomSequence (NewBB84Protocol n).bob n false rng p2 = some (b1, p3, none) →
      (a2.bits.length : Int) = n ∧ (a2.bases.length : Int) = n ∧
        (b1.bases.length : Int) = n ∧
        ∃ tb p4 key,
          simulateTransmission (NewBB84Protocol n).channel a2 b1 n rng p3 = some (tb, p4) ∧
          (tb.length : Int) = n ∧ siftKey a2 b1 tb n = some key) ∧
    (n = 1 → ∃ s p, Run (NewBB84Protocol n) rng pos = some (s, p, none) ∧
      (s.sharedKey.length = 0 ∨ s.sharedKey.length = 1)) ∧
    (∃ s p, Run (NewBB84Protocol 1) (fun _ => some 0) 0 = some (s, p, none) ∧
      s.sharedKey.length = 1) ∧
    (∃ s p, Run (NewBB84Protocol 1) (fun k => if k = 2 then some 1 else some 0) 0 =
      some (s, p, none) ∧ s.sharedKey.length = 0) := by
  have hok : 0 < n → n ≤ maxSliceLen →
      ∃ s p, Run (NewBB84Protocol n) rng pos = some (s, p, none) :=
    fun hn hm => Run_ok (NewBB84Protocol n) rng pos hr hn hm
  have hlong : (maxSliceLen : Int) < n → Run (NewBB84Protocol n) rng pos = none :=
    fun hm => Run_overlong (NewBB84Protocol n) rng pos hm
  refine ⟨⟨?_, ?_⟩, hok, hlong, ?_, ?_, ?_, ?_⟩
  · rintro ⟨s, p, e, h⟩
    by_contra hn
    by_cases hm : n ≤ maxSliceLen
    · obtain ⟨s2, p2, h2⟩ := hok (by omega) hm
      rw [h2] at h
      simp at h
    · rw [hlong (by omega)] at h
      cases h
  · intro hn
    exact ⟨_, _, _, Run_nonpos (NewBB84Protocol n) rng pos hn⟩
  · intro hn a1 p1 a2 p2 b1 p3 h1 h2 h3
    obtain ⟨_, _, f1, _⟩ := generateRandomSequence_frame _ _ _ _ _ _ _ h1
    obtain ⟨_, _, _, f2⟩ := generateRandomSequence_frame _ _ _ _ _ _ _ h2
    obtain ⟨_, _, _, f3⟩ := generateRandomSequence_frame _ _ _ _ _ _ _ h3
    have g1 := f1 rfl
    have g2 := f2 rfl
    have g3 := f3 rfl
    have l1 : (a2.bits.length : Int) = n := by rw [g2.2]; exact g1.1
    obtain ⟨tb, p4, h4, h5, _⟩ := simulateTransmission_spec (NewBB84Protocol n).channel
      a2 b1 n rng p3 (by omega) hr (by omega) (by omega) (by omega)
    have h6 := siftKey_closed a2 b1 tb n (by omega) (by omega) (by omega)
    exact ⟨l1, g2.1, g3.1, tb, p4, _, h4, h5, h6⟩
  · intro h1
    obtain ⟨s, p, h⟩ := hok (by omega) (by rw [h1]; decide)
    refine ⟨s, p, h, ?_⟩
    have hl := (Run_success_lengths _ _ _ _ _ h).2.2.2.2.2
    have hn1 : (NewBB84Protocol n).numberOfBits = 1 := h1
    rw [hn1] at hl
    omega
  · exact ⟨{ alice := ⟨[0], [0], "Alice"⟩, bob := ⟨[], [0], "Bob"⟩, sharedKey := [0],
             numberOfBits := 1, channel := ⟨[0]⟩, SecureComm := ⟨[0], []⟩ }, 3,
      by decide, by decide⟩
  · exact ⟨{ alice := ⟨[0], [0], "Alice"⟩, bob := ⟨[], [1], "Bob"⟩, sharedKey := [],
             numberOfBits := 1, channel := ⟨[0]⟩, SecureComm := ⟨[], []⟩ }, 4,
      by decide, by decide⟩

/-- Witness for C8: `n = 1` with every draw equal to 0. -/
theorem Run_boundary_witness :
    ∃ s p, Run (NewBB84Protocol 1) (fun _ => some 0) 7 = some (s, p, none) :=
  (Run_boundary 1 (fun _ => some 0) 7 (fun _ => rfl)).2.1 (by decide) (by decide)

/-- Claim C9 (length invariants): for `n > 0`, after a successful `Run` on
`NewBB84Protocol(n)`, whatever the draws were, Alice's bits, Alice's bases,
Bob's bases and the transmitted bits all have length `n` and the shared key
has length at most `n`. -/
theorem Run_length_invariants (n : Int) (rng : Entropy) (pos pos2 : Nat) (s : BB84Protocol)
    (_hn : 0 < n) (h : Run (NewBB84Protocol n) rng pos = some (s, pos2, none)) :
    (s.alice.bits.length : Int) = n ∧ (s.alice.bases.length : Int) = n ∧
      (s.bob.bases.length : Int) = n ∧ (s.channel.transmittedBits.length : Int) = n ∧
      (s.sharedKey.length : Int) ≤ n :=
  (Run_success_lengths (NewBB84Protocol n) s rng pos pos2 h).2

/-- Witness for C9: a run with `n = 2` whose draws alternate. -/
theorem Run_length_invariants_witness :
    Run (NewBB84Protocol 2) (fun k => some (k % 2)) 0 =
        some ({ alice := ⟨[0, 1], [0, 1], "Alice"⟩, bob := ⟨[], [0, 1], "Bob"⟩,
                sharedKey := [0, 1], numberOfBits := 2, channel := ⟨[0, 1]⟩,
                SecureComm := ⟨[0, 1], []⟩ }, 6, none) ∧
      (([0, 1] : List Int).length : Int) = 2 :=
  ⟨by decide,
   (Run_length_invariants 2 (fun k => some (k % 2)) 0 6
      { alice := ⟨[0, 1], [0, 1], "Alice"⟩, bob := ⟨[], [0, 1], "Bob"⟩,
        sharedKey := [0, 1], numberOfBits := 2, channel := ⟨[0, 1]⟩,
        SecureComm := ⟨[0, 1], []⟩ } (by decide) (by decide)).1⟩

/-! ## Decoder acceptance -/

theorem decodeMap_newline (c : Nat) (h : isNewline c = true) : decodeMap c = 255 := by
  simp only [isNewline, Bool.or_eq_true, beq_iff_eq] at h
  rcases h with h | h <;> subst h <;> decide

theorem decodeMap_padChar : decodeMap padChar = 255 := by decide

theorem isNewline_padChar : isNewline padChar = false := by decide

theorem skipNewlines_nil_iff (l : List Nat) :
    skipNewlines l = [] ↔ l.filter (fun c => !isNewline c) = [] := by
  induction l with
  | nil => simp [skipNewlines]
  | cons c rest ih =>
    rw [skipNewlines]
    by_cases h : isNewline c = true
    · simp [h, ih]
    · simp [h]

theorem skipNewlines_cons (l : List Nat) (c2 : Nat) (rest2 : List Nat)
    (h : skipNewlines l = c2 :: rest2) :
    l.filter (fun c => !isNewline c) = c2 :: rest2.filter (fun c => !isNewline c) := by
  induction l with
  | nil => simp [skipNewlines] at h
  | cons c rest ih =>
    rw [skipNewlines] at h
    by_cases hc : isNewline c = true
    · rw [if_pos hc] at h
      simp [hc, ih h]
    · rw [if_neg hc] at h
      simp only [List.cons.injEq] at h
      obtain ⟨h1, h2⟩ := h
      subst h1 h2
      simp [hc]

theorem skipNewlines_filter (l : List Nat) :
    skipNewlines (l.filter (fun c => !isNewline c)) = l.filter (fun c => !isNewline c) := by
  induction l with
  | nil => simp [skipNewlines]
  | cons c rest ih =>
    by_cases hc : isNewline c = true
    · simp [hc, ih]
    · simp [hc, skipNewlines]

theorem decodeLoop_cons (c : Nat) (rest dbuf : List Nat) :
    decodeLoop (c :: rest) dbuf =
      if decodeMap c ≠ 255 then
        match dbuf with
        | [d0, d1, d2] =>
          match decodeLoop rest [] with
          | none => none
          | some out => some (quantumBytes d0 d1 d2 (decodeMap c) ++ out)
        | _ => decodeLoop rest (dbuf ++ [decodeMap c])
      else if isNewline c then decodeLoop rest dbuf
      else if c ≠ padChar then none
      else
        match dbuf with
        | [d0, d1] =>
          match skipNewlines rest with
          | [] => none
          | c2 :: rest2 =>
            if c2 ≠ padChar then none
            else if (skipNewlines rest2).length ≠ 0 then none
            else some ((quantumBytes d0 d1 0 0).take 1)
        | [d0, d1, d2] =>
          if (skipNewlines rest).length ≠ 0 then none
          else some ((quantumBytes d0 d1 d2 0).take 2)
        | _ => none := by
  rw [decodeLoop.eq_def]

theorem decodeLoop_filter : ∀ (s dbuf : List Nat),
    decodeLoop s dbuf = decodeLoop (s.filter (fun c => !isNewline c)) dbuf := by
  intro s
  induction s with
  | nil => intro dbuf; simp
  | cons c rest ih =>
    intro dbuf
    by_cases hc : isNewline c = true
    · have hd := decodeMap_newline c hc
      have hf : (c :: rest).filter (fun c => !isNewline c) =
          rest.filter (fun c => !isNewline c) := by simp [hc]
      rw [hf, decodeLoop_cons, if_neg (by simp [hd]), if_pos hc]
      exact ih dbuf
    · have hf : (c :: rest).filter (fun c => !isNewline c) =
          c :: rest.filter (fun c => !isNewline c) := by simp [hc]
      rw [hf]
      rw [decodeLoop_cons, decodeLoop_cons]
      by_cases hd : decodeMap c ≠ 255
      · rw [if_pos hd, if_pos hd]
        split
        · rw [ih []]
        · rw [ih _]
      · rw [if_neg hd, if_neg hd, if_neg hc, if_neg hc]
        by_cases hp : c ≠ padChar
        · rw [if_pos hp, if_pos hp]
        · rw [if_neg hp, if_neg hp]
          split
          · rw [skipNewlines_filter]
            cases hs : skipNewlines rest with
            | nil =>
              rw [(skipNewlines_nil_iff rest).mp hs]
            | cons c2 rest2 =>
              rw [skipNewlines_cons rest c2 rest2 hs]
              simp only []
              by_cases hp2 : c2 ≠ padChar
              · rw [if_pos hp2, if_pos hp2]
              · rw [if_neg hp2, if_neg hp2]
                by_cases hn : skipNewlines rest2 = []
                · have hn2 := (skipNewlines_nil_iff rest2).mp hn
                  simp [hn, hn2, skipNewlines]
                · have hn2 : rest2.filter (fun c => !isNewline c) ≠ [] :=
                    fun h => hn ((skipNewlines_nil_iff rest2).mpr h)
                  have hn3 : skipNewlines (rest2.filter (fun c => !isNewline c)) ≠ [] := by
                    rw [skipNewlines_filter]; exact hn2
                  simp [hn, hn3]
          · rw [skipNewlines_filter]
            by_cases hn : skipNewlines rest = []
            · have hn2 := (skipNewlines_nil_iff rest).mp hn
              simp [hn, hn2]
            · have hn2 : rest.filter (fun c => !isNewline c) ≠ [] :=
                fun h => hn ((skipNewlines_nil_iff rest).mpr h)
              simp [hn, hn2]
          · rfl


theorem skipNewlines_of_clean (l : List Nat) (h : ∀ c ∈ l, isNewline c = false) :
    skipNewlines l = l := by
  cases l with
  | nil => rfl
  | cons c rest => rw [skipNewlines, if_neg (by simp [h c (by simp)])]

theorem validStdBase64_cons5 (c0 c1 c2 c3 c4 : Nat) (rest : List Nat) :
    validStdBase64 (c0 :: c1 :: c2 :: c3 :: c4 :: rest) =
      (decodeMap c0 != 255 && decodeMap c1 != 255 && decodeMap c2 != 255 &&
        decodeMap c3 != 255 && validStdBase64 (c4 :: rest)) := by
  rw [validStdBase64]
  simp

theorem decodeLoop_isSome_clean : ∀ (n : Nat) (s : List Nat), s.length = n →
    (∀ c ∈ s, isNewline c = false) →
    (decodeLoop s []).isSome = validStdBase64 s := by
  intro n
  induction n using Nat.strong_induction_on with
  | _ n ih =>
    intro s hlen hs
    have hp := decodeMap_padChar
    have hnp := isNewline_padChar
    match s, hlen, hs with
    | [], _, _ => simp [decodeLoop, validStdBase64]
    | [c0], _, hs =>
      have n0 := hs c0 (by simp)
      by_cases a0 : decodeMap c0 = 255 <;> by_cases p0 : c0 = padChar <;>
        simp [decodeLoop_cons, decodeLoop, validStdBase64, a0, p0, n0, hp, hnp]
    | [c0, c1], _, hs =>
      have n0 := hs c0 (by simp)
      have n1 := hs c1 (by simp)
      by_cases a0 : decodeMap c0 = 255 <;> by_cases p0 : c0 = padChar <;>
      by_cases a1 : decodeMap c1 = 255 <;> by_cases p1 : c1 = padChar <;>
        simp [decodeLoop_cons, decodeLoop, validStdBase64, a0, p0, n0, a1, p1, n1, hp, hnp]
    | [c0, c1, c2], _, hs =>
      have n0 := hs c0 (by simp)
      have n1 := hs c1 (by simp)
      have n2 := hs c2 (by simp)
      by_cases a0 : decodeMap c0 = 255 <;> by_cases p0 : c0 = padChar <;>
      by_cases a1 : decodeMap c1 = 255 <;> by_cases p1 : c1 = padChar <;>
      by_cases a2 : decodeMap c2 = 255 <;> by_cases p2 : c2 = padChar <;>
        simp [decodeLoop_cons, decodeLoop, validStdBase64, skipNewlines,
          a0, p0, n0, a1, p1, n1, a2, p2, n2, hp, hnp]
    | [c0, c1, c2, c3], _, hs =>
      have n0 := hs c0 (by simp)
      have n1 := hs c1 (by simp)
      have n2 := hs c2 (by simp)
      have n3 := hs c3 (by simp)
      by_cases a0 : decodeMap c0 = 255 <;> by_cases p0 : c0 = padChar <;>
      by_cases a1 : decodeMap c1 = 255 <;> by_cases p1 : c1 = padChar <;>
      by_cases a2 : decodeMap c2 = 255 <;> by_cases p2 : c2 = padChar <;>
      by_cases a3 : decodeMap c3 = 255 <;> by_cases p3 : c3 = padChar <;>
        simp [decodeLoop_cons, decodeLoop, validStdBase64, skipNewlines,
          a0, p0, n0, a1, p1, n1, a2, p2, n2, a3, p3, n3, hp, hnp]
    | c0 :: c1 :: c2 :: c3 :: c4 :: rest, hlen, hs =>
      have n0 := hs c0 (by simp)
      have n1 := hs c1 (by simp)
      have n2 := hs c2 (by simp)
      have n3 := hs c3 (by simp)
      have n4 := hs c4 (by simp)
      have hrest : ∀ c ∈ c4 :: rest, isNewline c = false := fun c hc => hs c (by
        simp only [List.mem_cons] at hc ⊢
        tauto)
      have ihr := ih (c4 :: rest).length (by simp at hlen ⊢; omega) (c4 :: rest) rfl hrest
      have hsk : skipNewlines (c4 :: rest) = c4 :: rest := skipNewlines_of_clean _ hrest
      rw [validStdBase64_cons5, ← ihr]
      have htl : c4 :: rest ≠ [] := by simp
      generalize c4 :: rest = tail at hsk htl ⊢
      by_cases a0 : decodeMap c0 = 255 <;> by_cases p0 : c0 = padChar <;>
      by_cases a1 : decodeMap c1 = 255 <;> by_cases p1 : c1 = padChar <;>
      by_cases a2 : decodeMap c2 = 255 <;> by_cases p2 : c2 = padChar <;>
      by_cases a3 : decodeMap c3 = 255 <;> by_cases p3 : c3 = padChar <;>
        cases hd : decodeLoop tail [] <;>
        simp [decodeLoop_cons, hd, hsk, htl, skipNewlines, a0, p0, n0, a1, p1, n1, a2, p2, n2,
          a3, p3, n3, hp, hnp]

theorem DecodeString_isSome (s : List Nat) :
    (DecodeString s).isSome = validStdBase64 (stripNewlines s) := by
  rw [DecodeString, decodeLoop_filter, stripNewlines]
  apply decodeLoop_isSome_clean _ _ rfl
  intro c hc
  simpa using (List.mem_filter.mp hc).2

theorem Decrypt_cases (s : SecureCommunication) (msg : Message) (hk : s.sharedKey ≠ []) :
    (validStdBase64 (stripNewlines msg.Ciphertext) = false ∧
      Decrypt s msg = some ([], some GoError.decodeCiphertext)) ∨
    (validStdBase64 (stripNewlines msg.Ciphertext) = true ∧
      ∃ pt, Decrypt s msg = some (pt, none)) := by
  have hb : (convertKeyToBytes s.sharedKey).length ≠ 0 :=
    Nat.pos_iff_ne_zero.mp (convertKeyToBytes_length_pos _ hk)
  have hv := DecodeString_isSome msg.Ciphertext
  cases hd : DecodeString msg.Ciphertext with
  | none =>
    left
    rw [hd] at hv
    exact ⟨hv.symm, by simp only [Decrypt, hd]⟩
  | some cb =>
    right
    rw [hd] at hv
    refine ⟨hv.symm, (List.range cb.length).map (xorAt cb (convertKeyToBytes s.sharedKey)), ?_⟩
    simp only [Decrypt, hd, xorBytes_eq cb _ hb]

/-- Claim C10 as stated fails: the ciphertext `"QQ==\n"` is not a standard
padded base64 string, yet `Decrypt` under the key `[1,1]` returns a nil
error (the library decoder ignores line breaks). -/
theorem decrypt_accepts_line_break :
    Decrypt ⟨[1, 1], []⟩ ⟨[81, 81, 61, 61, 10], "Alice"⟩ = some ([129], none) ∧
      validStdBase64 [81, 81, 61, 61, 10] = false := by
  decide

/-- Claim C10, amended: with a non-empty key `Decrypt` never panics and
returns an error exactly when the ciphertext with its `\r` and `\n`
characters removed is not a standard padded base64 string; the key plays no
part, so a message encrypted under any non-empty key decrypts without error
under any other non-empty key. -/
theorem decrypt_error_iff (s : SecureCommunication) (msg : Message) (hk : s.sharedKey ≠ []) :
    ((∃ pt e, Decrypt s msg = some (pt, some e)) ↔
        validStdBase64 (stripNewlines msg.Ciphertext) = false) ∧
    ((∃ pt, Decrypt s msg = some (pt, none)) ↔
        validStdBase64 (stripNewlines msg.Ciphertext) = true) ∧
    (∀ (s1 s1b : SecureCommunication) (p : List Nat) (sender : String) (m1 : Message),
      s1.sharedKey ≠ [] → allBytes p → Encrypt s1 p sender = some (s1b, m1, none) →
      ∃ pt, Decrypt s m1 = some (pt, none)) := by
  refine ⟨⟨?_, ?_⟩, ⟨?_, ?_⟩, ?_⟩
  · rintro ⟨pt, e, h⟩
    rcases Decrypt_cases s msg hk with ⟨hv, _⟩ | ⟨_, pt2, h2⟩
    · exact hv
    · rw [h2] at h; simp at h
  · intro hv
    rcases Decrypt_cases s msg hk with ⟨_, h⟩ | ⟨hv2, _⟩
    · exact ⟨_, _, h⟩
    · rw [hv] at hv2; cases hv2
  · rintro ⟨pt, h⟩
    rcases Decrypt_cases s msg hk with ⟨_, h2⟩ | ⟨hv, _⟩
    · rw [h2] at h; simp at h
    · exact hv
  · intro hv
    rcases Decrypt_cases s msg hk with ⟨hv2, _⟩ | ⟨_, h⟩
    · rw [hv] at hv2; cases hv2
    · exact h
  · intro s1 s1b p sender m1 hk1 hp he
    rw [Encrypt_eq s1 p sender hk1] at he
    simp only [Option.some.injEq, Prod.mk.injEq, and_true] at he
    obtain ⟨_, hm⟩ := he
    have hb1 : (convertKeyToBytes s1.sharedKey).length ≠ 0 :=
      Nat.pos_iff_ne_zero.mp (convertKeyToBytes_length_pos _ hk1)
    have hcb : allBytes ((List.range p.length).map (xorAt p (convertKeyToBytes s1.sharedKey))) :=
      xorBytes_allBytes p _ _ hp (convertKeyToBytes_allBytes _) hb1 (xorBytes_eq p _ hb1)
    have hdec := decode_encode _ _ rfl hcb
    have hb : (convertKeyToBytes s.sharedKey).length ≠ 0 :=
      Nat.pos_iff_ne_zero.mp (convertKeyToBytes_length_pos _ hk)
    rw [← hm]
    simp only [Decrypt, hdec, xorBytes_eq _ _ hb]
    exact ⟨_, rfl⟩

/-- Witness for C10 (amended): the key `[1,1]` and the ciphertext `"SGk="`. -/
theorem decrypt_error_iff_witness :
    ((∃ pt, Decrypt ⟨[1, 1], []⟩ ⟨[83, 71, 107, 61], "Alice"⟩ = some (pt, none)) ↔
        validStdBase64 (stripNewlines [83, 71, 107, 61]) = true) ∧
      validStdBase64 (stripNewlines [83, 71, 107, 61]) = true :=
  ⟨(decrypt_error_iff ⟨[1, 1], []⟩ ⟨[83, 71, 107, 61], "Alice"⟩ (by decide)).2.1, by decide⟩

/-! ## Use before initialization -/

theorem Encrypt_error_nil (s s2 : SecureCommunication) (p : List Nat) (sender : String)
    (msg : Message) (e : Option GoError) (h : Encrypt s p sender = some (s2, msg, e)) :
    e = none ∧ s2.sharedKey = s.sharedKey ∧ s2.messages = s.messages ++ [msg] ∧
      msg.Sender = sender := by
  rw [Encrypt] at h
  split at h
  · cases h
  · simp only [Option.some.injEq, Prod.mk.injEq] at h
    obtain ⟨h1, h2, h3⟩ := h
    subst h1 h2 h3
    exact ⟨rfl, rfl, rfl, rfl⟩

theorem Decrypt_error_decode (s : SecureCommunication) (msg : Message) (pt : List Nat)
    (e : GoError) (h : Decrypt s msg = some (pt, some e)) :
    e = GoError.decodeCiphertext ∧ DecodeString msg.Ciphertext = none ∧ pt = [] := by
  rw [Decrypt] at h
  split at h
  · simp only [Option.some.injEq, Prod.mk.injEq] at h
    rename_i hd
    exact ⟨h.2.symm, hd, h.1.symm⟩
  · split at h
    · cases h
    · simp at h

/-- Claim C11 as stated fails: on the never-initialized `SecureComm` of a
fresh coordinator, `Encrypt` of the empty plaintext returns a message with
a nil error, and `Decrypt` of that message returns the empty string with a
nil error. -/
theorem encrypt_uninitialized_returns :
    Encrypt (NewBB84Protocol 128).SecureComm [] "Alice" =
        some (⟨[], [⟨[], "Alice"⟩]⟩, ⟨[], "Alice"⟩, none) ∧
      Decrypt (NewBB84Protocol 128).SecureComm ⟨[], "Alice"⟩ = some ([], none) := by
  decide

/-- Claim C11, amended: `Encrypt` and `Decrypt` make no initialization
check.  A never-initialized `SecureCommunication` is the one initialized
with the empty key; `Encrypt` never returns a non-nil error, and on the
empty plaintext it returns a message; the only error `Decrypt` returns is
the decoding error of a ciphertext that does not decode, and a ciphertext
that decodes to the empty byte string decrypts to the empty string. -/
theorem uninitialized_no_precondition_error (n : Int) (p : List Nat) (sender : String)
    (msg : Message) :
    (NewBB84Protocol n).SecureComm =
        InitializeSecureChannel (NewBB84Protocol n).SecureComm [] ∧
    (∀ s2 m e, Encrypt (NewBB84Protocol n).SecureComm p sender = some (s2, m, e) →
      e = none) ∧
    (∃ s2, Encrypt (NewBB84Protocol n).SecureComm [] sender =
      some (s2, ⟨[], sender⟩, none)) ∧
    (∀ pt e, Decrypt (NewBB84Protocol n).SecureComm msg = some (pt, some e) →
      e = GoError.decodeCiphertext ∧ DecodeString msg.Ciphertext = none) ∧
    (DecodeString msg.Ciphertext = none →
      Decrypt (NewBB84Protocol n).SecureComm msg =
        some ([], some GoError.decodeCiphertext)) ∧
    (DecodeString msg.Ciphertext = some [] →
      Decrypt (NewBB84Protocol n).SecureComm msg = some ([], none)) := by
  refine ⟨rfl, ?_, ⟨_, rfl⟩, ?_, ?_, ?_⟩
  · intro s2 m e h
    exact (Encrypt_error_nil _ _ _ _ _ _ h).1
  · intro pt e h
    obtain ⟨h1, h2, _⟩ := Decrypt_error_decode _ _ _ _ h
    exact ⟨h1, h2⟩
  · intro h
    simp only [Decrypt, h]
  · intro h
    simp only [Decrypt, h]
    rfl

/-! ## Failure of a run -/

theorem generateRandomSequence_frame_any (p : Participant) (n : Int) (isBit : Bool)
    (rng : Entropy) (pos : Nat) (p2 : Participant) (pos2 : Nat) (e : Option GoError)
    (h : generateRandomSequence p n isBit rng pos = some (p2, pos2, e)) :
    p2.name = p.name ∧ (isBit = true → p2.bases = p.bases) ∧
      (isBit = false → p2.bits = p.bits) := by
  rw [generateRandomSequence] at h
  by_cases hn : n ≤ 0
  · rw [if_pos hn] at h
    simp only [Option.some.injEq, Prod.mk.injEq] at h
    rw [← h.1]
    exact ⟨rfl, fun _ => rfl, fun _ => rfl⟩
  · rw [if_neg hn] at h
    by_cases hm : maxSliceLen < n.toNat
    · rw [if_pos hm] at h; cases h
    rw [if_neg hm] at h
    simp only [Option.some.injEq] at h
    obtain ⟨_, _, h3, h4, h5⟩ := generateLoop_frame rng isBit n.toNat 0
      (if isBit = true then { p with bits := List.replicate n.toNat 0 }
          else { p with bases := List.replicate n.toNat 0 }) pos
    rw [h] at h3 h4 h5
    refine ⟨?_, ?_, ?_⟩
    · rw [h3]; split <;> rfl
    · intro hb
      rw [h4 hb]
      subst hb
      rfl
    · intro hb
      rw [h5 hb]
      subst hb
      rfl

theorem Run_error_frame (bb84 s : BB84Protocol) (rng : Entropy) (pos pos2 : Nat)
    (e : GoError) (h : Run bb84 rng pos = some (s, pos2, some e)) :
    s = { bb84 with
          alice := { bb84.alice with bits := s.alice.bits, bases := s.alice.bases }
          bob := { bb84.bob with bases := s.bob.bases } } ∧
      (bb84.numberOfBits ≤ 0 → s = bb84) := by
  rw [Run] at h
  rcases h1 : generateRandomSequence bb84.alice bb84.numberOfBits true rng pos
    with _ | ⟨a1, pos1, e1⟩
  · rw [h1] at h; simp at h
  rw [h1] at h
  have f1 := generateRandomSequence_frame_any _ _ _ _ _ _ _ _ h1
  cases e1 with
  | some e1 =>
    simp only [Option.some.injEq, Prod.mk.injEq] at h
    obtain ⟨hs, _, _⟩ := h
    subst hs
    refine ⟨?_, ?_⟩
    · cases bb84 with
      | mk alice bob sharedKey numberOfBits channel SecureComm =>
        cases a1 with
        | mk bits bases name =>
          simp only [] at f1 ⊢
          rw [f1.1]
    · intro hn
      rw [generateRandomSequence_nonpos _ _ _ _ _ hn] at h1
      simp only [Option.some.injEq, Prod.mk.injEq] at h1
      rw [← h1.1]
  | none =>
    simp only [] at h
    have hn0 := (generateRandomSequence_frame _ _ _ _ _ _ _ h1).1
    rcases h2 : generateRandomSequence a1 bb84.numberOfBits false rng pos1
      with _ | ⟨a2, pos2b, e2⟩
    · rw [h2] at h; simp at h
    rw [h2] at h
    have f2 := generateRandomSequence_frame_any _ _ _ _ _ _ _ _ h2
    cases e2 with
    | some e2 =>
      simp only [Option.some.injEq, Prod.mk.injEq] at h
      obtain ⟨hs, _, _⟩ := h
      subst hs
      refine ⟨?_, ?_⟩
      · cases bb84 with
        | mk alice bob sharedKey numberOfBits channel SecureComm =>
          cases a2 with
          | mk bits bases name =>
            simp only [] at f1 f2 ⊢
            rw [f2.1, f1.1]
      · intro hn
        omega
    | none =>
      simp only [] at h
      rcases h3 : generateRandomSequence bb84.bob bb84.numberOfBits false rng pos2b
        with _ | ⟨b1, pos3, e3⟩
      · rw [h3] at h; simp at h
      rw [h3] at h
      have f3 := generateRandomSequence_frame_any _ _ _ _ _ _ _ _ h3
      cases e3 with
      | some e3 =>
        simp only [Option.some.injEq, Prod.mk.injEq] at h
        obtain ⟨hs, _, _⟩ := h
        subst hs
        refine ⟨?_, ?_⟩
        · cases bb84 with
          | mk alice bob sharedKey numberOfBits channel SecureComm =>
            cases a2 with
            | mk bits bases name =>
              cases b1 with
              | mk bits3 bases3 name3 =>
                simp only [] at f1 f2 f3 ⊢
                rw [f2.1, f1.1, f3.1, f3.2.2 trivial]
        · intro hn
          omega
      | none =>
        simp only [] at h
        split at h
        · cases h
        · split at h
          · cases h
          · simp at h

/-- Claim C12 (failing input): with `n = 1`, bases that differ and an
entropy source that fails on the fourth request (the mismatched-basis draw
of the transmission step), `Run` does not return an error: it panics.  A
failure in a generation step is returned as an error. -/
theorem run_transmission_entropy_failure_panics :
    Run (NewBB84Protocol 1)
        (fun k => if k = 3 then none else if k = 2 then some 1 else some 0) 0 = none ∧
      simulateTransmission ⟨[]⟩ ⟨[0], [0], "Alice"⟩ ⟨[], [1], "Bob"⟩ 1 (fun _ => none) 3 = none ∧
      Run (NewBB84Protocol 1) (fun k => if k = 2 then none else some 0) 0 =
        some ({ alice := ⟨[0], [0], "Alice"⟩, bob := ⟨[], [0], "Bob"⟩, sharedKey := [],
                numberOfBits := 1, channel := ⟨[]⟩, SecureComm := ⟨[], []⟩ }, 3,
              some (GoError.bobBases GoError.randomSequence)) := by
  decide

/-- Claim C13 as stated fails: on a fresh coordinator with `n = 2` and an
entropy source that fails on the second request, `Run` returns an error
and Alice's bits, empty before the call, are `[1, 0]` after it. -/
theorem run_error_not_atomic :
    Run (NewBB84Protocol 2) (fun k => if k = 0 then some 1 else none) 0 =
        some ({ alice := ⟨[1, 0], [], "Alice"⟩, bob := ⟨[], [], "Bob"⟩, sharedKey := [],
                numberOfBits := 2, channel := ⟨[]⟩, SecureComm := ⟨[], []⟩ }, 2,
              some (GoError.aliceBits GoError.randomSequence)) ∧
      (NewBB84Protocol 2).alice.bits = [] := by
  decide

/-- Claim C13, amended: if `Run` returns an error then `sharedKey`,
`SecureComm`, `channel`, `numberOfBits`, Bob's bits and both names equal
their values before the call (Alice's bits and bases and Bob's bases may
have been overwritten); when the error is the one for `n ≤ 0` every field
is unchanged; and on a freshly constructed coordinator no shared key is
set. -/
theorem run_error_state (bb84 s : BB84Protocol) (rng : Entropy) (pos pos2 : Nat)
    (e : GoError) (h : Run bb84 rng pos = some (s, pos2, some e)) :
    s.sharedKey = bb84.sharedKey ∧ s.SecureComm = bb84.SecureComm ∧
      s.channel = bb84.channel ∧ s.numberOfBits = bb84.numberOfBits ∧
      s.bob.bits = bb84.bob.bits ∧ s.alice.name = bb84.alice.name ∧
      s.bob.name = bb84.bob.name ∧
      (bb84.numberOfBits ≤ 0 → s = bb84) ∧
      (∀ n, bb84 = NewBB84Protocol n → s.sharedKey = [] ∧ s.SecureComm.sharedKey = []) := by
  obtain ⟨h1, h2⟩ := Run_error_frame bb84 s rng pos pos2 e h
  refine ⟨?_, ?_, ?_, ?_, ?_, ?_, ?_, h2, ?_⟩
  · rw [h1]
  · rw [h1]
  · rw [h1]
  · rw [h1]
  · rw [h1]
  · rw [h1]
  · rw [h1]
  · intro n hn
    rw [h1, hn]
    exact ⟨rfl, rfl⟩

/-- Witness for C13 (amended): the failing run of the counterexample. -/
theorem run_error_state_witness :
    ({ alice := ⟨[1, 0], [], "Alice"⟩, bob := ⟨[], [], "Bob"⟩, sharedKey := [],
       numberOfBits := 2, channel := ⟨[]⟩, SecureComm := ⟨[], []⟩ } : BB84Protocol).sharedKey =
      (NewBB84Protocol 2).sharedKey :=
  (run_error_state (NewBB84Protocol 2)
    { alice := ⟨[1, 0], [], "Alice"⟩, bob := ⟨[], [], "Bob"⟩, sharedKey := [],
      numberOfBits := 2, channel := ⟨[]⟩, SecureComm := ⟨[], []⟩ }
    (fun k => if k = 0 then some 1 else none) 0 2
    (GoError.aliceBits GoError.randomSequence) (by decide)).1

/-- Claim C14 (downstream steps do not run on failure): if `Run` returns an
error then `channel.transmittedBits`, `sharedKey` and `SecureComm` (key and
message log) are what they were before the call, and the coordinator
differs from its state before the call at most in Alice's bits, Alice's
bases and Bob's bases. -/
theorem run_error_downstream (bb84 s : BB84Protocol) (rng : Entropy) (pos pos2 : Nat)
    (e : GoError) (h : Run bb84 rng pos = some (s, pos2, some e)) :
    s.channel.transmittedBits = bb84.channel.transmittedBits ∧
      s.sharedKey = bb84.sharedKey ∧
      s.SecureComm.sharedKey = bb84.SecureComm.sharedKey ∧
      s.SecureComm.messages = bb84.SecureComm.messages ∧
      s = { bb84 with
            alice := { bb84.alice with bits := s.alice.bits, bases := s.alice.bases }
            bob := { bb84.bob with bases := s.bob.bases } } := by
  obtain ⟨h1, _⟩ := Run_error_frame bb84 s rng pos pos2 e h
  refine ⟨?_, ?_, ?_, ?_, h1⟩
  · rw [h1]
  · rw [h1]
  · rw [h1]
  · rw [h1]

/-- Witness for C14: a coordinator that has already run and logged a
message is run again with an entropy source that fails on the third
request. -/
theorem run_error_downstream_witness :
    ({ alice := ⟨[0, 0], [0, 0], "Alice"⟩, bob := ⟨[], [1, 1], "Bob"⟩, sharedKey := [1, 1],
       numberOfBits := 2, channel := ⟨[1, 1]⟩,
       SecureComm := ⟨[1, 1], [⟨[83, 71, 107, 61], "Alice"⟩]⟩ } : BB84Protocol).sharedKey =
      [1, 1] :=
  (run_error_downstream
    { alice := ⟨[1, 1], [1, 1], "Alice"⟩, bob := ⟨[], [1, 1], "Bob"⟩, sharedKey := [1, 1],
      numberOfBits := 2, channel := ⟨[1, 1]⟩,
      SecureComm := ⟨[1, 1], [⟨[83, 71, 107, 61], "Alice"⟩]⟩ }
    { alice := ⟨[0, 0], [0, 0], "Alice"⟩, bob := ⟨[], [1, 1], "Bob"⟩, sharedKey := [1, 1],
      numberOfBits := 2, channel := ⟨[1, 1]⟩,
      SecureComm := ⟨[1, 1], [⟨[83, 71, 107, 61], "Alice"⟩]⟩ }
    (fun k => if k < 2 then some 0 else none) 0 3
    (GoError.aliceBases GoError.randomSequence) (by decide)).2.1

/-! ## Bookkeeping of the secure channel -/

theorem afterCall_key (s s2 : SecureCommunication) (call : Call)
    (h : afterCall s call = some s2) : s2.sharedKey = s.sharedKey := by
  cases call with
  | encrypt p sender =>
    rw [afterCall] at h
    split at h
    · cases h
    · rename_i s3 m e he
      simp only [Option.some.injEq] at h
      subst h
      exact (Encrypt_error_nil _ _ _ _ _ _ he).2.1
  | decrypt msg =>
    rw [afterCall] at h
    split at h
    · cases h
    · simp only [Option.some.injEq] at h
      rw [h]

theorem afterCalls_key : ∀ (calls : List Call) (s s2 : SecureCommunication),
    afterCalls s calls = some s2 → s2.sharedKey = s.sharedKey := by
  intro calls
  induction calls with
  | nil =>
    intro s s2 h
    simp only [afterCalls, Option.some.injEq] at h
    rw [h]
  | cons call rest ih =>
    intro s s2 h
    rw [afterCalls] at h
    split at h
    · cases h
    · rename_i s3 hs3
      rw [ih s3 s2 h, afterCall_key s s3 call hs3]

/-- Claim C15 (bookkeeping and frame): with a non-empty key a call of
`Encrypt` returns a message with a nil error, keeps the key and appends
exactly the returned message to the log; a call of `Decrypt` leaves the
receiver as it was; after any sequence of calls the key, and hence the
packed key bytes, are those stored at initialization. -/
theorem encrypt_decrypt_bookkeeping (s : SecureCommunication) (p : List Nat)
    (sender : String) (msg : Message) (calls : List Call) (hk : s.sharedKey ≠ []) :
    (∃ s2 m, Encrypt s p sender = some (s2, m, none) ∧ s2.sharedKey = s.sharedKey ∧
      s2.messages = s.messages ++ [m]) ∧
    afterCall s (Call.decrypt msg) = some s ∧
    (∀ s2, afterCalls s calls = some s2 →
      s2.sharedKey = s.sharedKey ∧
      convertKeyToBytes s2.sharedKey = convertKeyToBytes s.sharedKey) := by
  refine ⟨?_, ?_, ?_⟩
  · exact ⟨_, _, Encrypt_eq s p sender hk, rfl, rfl⟩
  · rw [afterCall]
    rcases Decrypt_cases s msg hk with ⟨_, h⟩ | ⟨_, pt, h⟩ <;> rw [h]
  · intro s2 h
    have hkey := afterCalls_key calls s s2 h
    exact ⟨hkey, by rw [hkey]⟩

/-- Witness for C15: one `Encrypt` and one `Decrypt` under the key `[1,1]`. -/
theorem encrypt_decrypt_bookkeeping_witness :
    afterCall ⟨[1, 1], []⟩ (Call.decrypt ⟨[83, 71, 107, 61], "Alice"⟩) = some ⟨[1, 1], []⟩ ∧
      afterCalls ⟨[1, 1], []⟩
          [Call.encrypt [72, 105] "Alice", Call.decrypt ⟨[105, 75, 107, 61], "Alice"⟩] =
        some ⟨[1, 1], [⟨[105, 75, 107, 61], "Alice"⟩]⟩ :=
  ⟨(encrypt_decrypt_bookkeeping ⟨[1, 1], []⟩ [72, 105] "Alice" ⟨[83, 71, 107, 61], "Alice"⟩
      [] (by decide)).2.1, by decide⟩

/-! ## Repeating-key XOR -/

theorem xor_key_cancel (a b k : Nat) : (a ^^^ k) ^^^ (b ^^^ k) = a ^^^ b := by
  rw [Nat.xor_assoc, Nat.xor_comm b k, ← Nat.xor_assoc k, Nat.xor_self, Nat.zero_xor]

/-- Claim C20 (repeating-key XOR leak): with a non-empty key and two
plaintexts of equal length, the bytes `c1`, `c2` that `Encrypt` encodes
satisfy `c1[i] XOR c2[i] = p1[i] XOR p2[i]` at every index; the ciphertext
is a function of key and plaintext alone, whatever the sender and the
message log are. -/
theorem xor_keystream_leak (s : SecureCommunication) (p1 p2 : List Nat)
    (sender1 sender2 : String) (hk : s.sharedKey ≠ []) (hlen : p1.length = p2.length) :
    ∃ c1 c2 sa sb,
      xorBytes p1 (convertKeyToBytes s.sharedKey) = some c1 ∧
      xorBytes p2 (convertKeyToBytes s.sharedKey) = some c2 ∧
      Encrypt s p1 sender1 = some (sa, ⟨EncodeToString c1, sender1⟩, none) ∧
      Encrypt s p2 sender2 = some (sb, ⟨EncodeToString c2, sender2⟩, none) ∧
      c1.length = p1.length ∧ c2.length = p2.length ∧
      (∀ i, i < p1.length → c1.getD i 0 ^^^ c2.getD i 0 = p1.getD i 0 ^^^ p2.getD i 0) ∧
      (∀ (t : SecureCommunication) (sender : String), t.sharedKey = s.sharedKey →
        ∃ tb, Encrypt t p1 sender = some (tb, ⟨EncodeToString c1, sender⟩, none)) := by
  have hb : (convertKeyToBytes s.sharedKey).length ≠ 0 :=
    Nat.pos_iff_ne_zero.mp (convertKeyToBytes_length_pos _ hk)
  refine ⟨_, _, _, _, xorBytes_eq p1 _ hb, xorBytes_eq p2 _ hb, Encrypt_eq s p1 sender1 hk,
    Encrypt_eq s p2 sender2 hk, by simp, by simp, ?_, ?_⟩
  · intro i hi
    have hi2 : i < p2.length := by omega
    simp only [List.getD_eq_getElem?_getD, List.getElem?_map, List.getElem?_range hi,
      List.getElem?_range hi2, Option.map_some', Option.getD_some, xorAt]
    exact xor_key_cancel _ _ _
  · intro t sender ht
    have hkt : t.sharedKey ≠ [] := by rw [ht]; exact hk
    rw [Encrypt_eq t p1 sender hkt, ht]
    exact ⟨_, rfl⟩

/-- Witness for C20: the plaintexts "Hi" and "Yo" under the key `[1,1]`. -/
theorem xor_keystream_leak_witness :
    ∃ c1 c2 sa sb,
      xorBytes [72, 105] (convertKeyToBytes [1, 1]) = some c1 ∧
      xorBytes [89, 111] (convertKeyToBytes [1, 1]) = some c2 ∧
      Encrypt ⟨[1, 1], []⟩ [72, 105] "Alice" = some (sa, ⟨EncodeToString c1, "Alice"⟩, none) ∧
      Encrypt ⟨[1, 1], []⟩ [89, 111] "Bob" = some (sb, ⟨EncodeToString c2, "Bob"⟩, none) ∧
      c1.length = [72, 105].length ∧ c2.length = [89, 111].length ∧
      (∀ i, i < [72, 105].length →
        c1.getD i 0 ^^^ c2.getD i 0 = [72, 105].getD i 0 ^^^ [89, 111].getD i 0) ∧
      (∀ (t : SecureCommunication) (sender : String),
        t.sharedKey = (⟨[1, 1], []⟩ : SecureCommunication).sharedKey →
        ∃ tb, Encrypt t [72, 105] sender = some (tb, ⟨EncodeToString c1, sender⟩, none)) :=
  xor_keystream_leak ⟨[1, 1], []⟩ [72, 105] [89, 111] "Alice" "Bob" (by decide) (by decide)

/-! ## Shape of a successful run -/

theorem Run_success_shape (bb84 s : BB84Protocol) (rng : Entropy) (pos pos2 : Nat)
    (h : Run bb84 rng pos = some (s, pos2, none)) :
    ∃ a1 p1 p2 p3,
      generateRandomSequence bb84.alice bb84.numberOfBits true rng pos =
        some (a1, p1, none) ∧
      generateRandomSequence a1 bb84.numberOfBits false rng p1 = some (s.alice, p2, none) ∧
      generateRandomSequence bb84.bob bb84.numberOfBits false rng p2 = some (s.bob, p3, none) ∧
      simulateTransmission bb84.channel s.alice s.bob bb84.numberOfBits rng p3 =
        some (s.channel.transmittedBits, pos2) ∧
      siftKey s.alice s.bob s.channel.transmittedBits bb84.numberOfBits = some s.sharedKey ∧
      s.SecureComm = ⟨s.sharedKey, []⟩ ∧ s.numberOfBits = bb84.numberOfBits := by
  rw [Run] at h
  rcases h1 : generateRandomSequence bb84.alice bb84.numberOfBits true rng pos
    with _ | ⟨a1, pos1, e1⟩
  · rw [h1] at h; simp at h
  rw [h1] at h
  cases e1 with
  | some e => simp at h
  | none =>
    simp only [] at h
    rcases h2 : generateRandomSequence a1 bb84.numberOfBits false rng pos1
      with _ | ⟨a2, pos2b, e2⟩
    · rw [h2] at h; simp at h
    rw [h2] at h
    cases e2 with
    | some e => simp at h
    | none =>
      simp only [] at h
      rcases h3 : generateRandomSequence bb84.bob bb84.numberOfBits false rng pos2b
        with _ | ⟨b1, pos3, e3⟩
      · rw [h3] at h; simp at h
      rw [h3] at h
      cases e3 with
      | some e => simp at h
      | none =>
        simp only [] at h
        cases h4 : simulateTransmission bb84.channel a2 b1 bb84.numberOfBits rng pos3 with
        | none => rw [h4] at h; simp at h
        | some r =>
          obtain ⟨tb, pos4⟩ := r
          rw [h4] at h
          simp only [] at h
          cases h5 : siftKey a2 b1 tb bb84.numberOfBits with
          | none => rw [h5] at h; simp at h
          | some key =>
            rw [h5] at h
            simp only [Option.some.injEq, Prod.mk.injEq, and_true] at h
            obtain ⟨hs, hp⟩ := h
            subst hs hp
            exact ⟨a1, pos1, pos2b, pos3, rfl, h2, h3, h4, h5, rfl, rfl⟩

/-! ## Alphabet of the generated sequences -/

theorem allBits_set (l : List Int) (i : Nat) (v : Int) (hl : allBits l)
    (hv : v = 0 ∨ v = 1) : allBits (l.set i v) := by
  intro x hx
  rcases List.mem_or_eq_of_mem_set hx with h | h
  · exact hl x h
  · rw [h]; exact hv

theorem allBits_replicate (n : Nat) : allBits (List.replicate n 0) := by
  intro x hx
  exact Or.inl (List.eq_of_mem_replicate hx)

theorem generateLoop_allBits (rng : Entropy) (hv : bitValued rng) (isBit : Bool) :
    ∀ (k i : Nat) (p : Participant) (pos : Nat),
      (isBit = true → allBits p.bits → allBits (generateLoop rng isBit i k p pos).1.bits) ∧
      (isBit = false → allBits p.bases →
        allBits (generateLoop rng isBit i k p pos).1.bases) := by
  intro k
  induction k with
  | zero => intro i p pos; simp [generateLoop]
  | succ k ih =>
    intro i p pos
    rw [generateLoop]
    cases hrp : rng pos with
    | none => exact ⟨fun _ h => h, fun _ h => h⟩
    | some num =>
      have hnum := hv pos num hrp
      cases isBit with
      | true =>
        simp only [if_true]
        refine ⟨fun _ hb => ?_, fun hc => by cases hc⟩
        exact (ih (i + 1) { p with bits := p.bits.set i num } (pos + 1)).1 rfl
          (allBits_set _ _ _ hb hnum)
      | false =>
        simp only [Bool.false_eq_true, if_false]
        refine ⟨fun hc => hc.elim, fun _ hb => ?_⟩
        exact (ih (i + 1) { p with bases := p.bases.set i num } (pos + 1)).2 rfl
          (allBits_set _ _ _ hb hnum)

theorem generateRandomSequence_allBits (p p2 : Participant) (n : Int) (isBit : Bool)
    (rng : Entropy) (pos pos2 : Nat) (hv : bitValued rng)
    (h : generateRandomSequence p n isBit rng pos = some (p2, pos2, none)) :
    (isBit = true → allBits p2.bits) ∧ (isBit = false → allBits p2.bases) := by
  rw [generateRandomSequence] at h
  by_cases hn : n ≤ 0
  · rw [if_pos hn] at h; cases h
  · rw [if_neg hn] at h
    by_cases hm : maxSliceLen < n.toNat
    · rw [if_pos hm] at h; cases h
    rw [if_neg hm] at h
    simp only [Option.some.injEq] at h
    have hl := generateLoop_allBits rng hv isBit n.toNat 0
      (if isBit = true then { p with bits := List.replicate n.toNat 0 }
        else { p with bases := List.replicate n.toNat 0 }) pos
    rw [h] at hl
    constructor
    · intro hb
      subst hb
      exact hl.1 rfl (allBits_replicate _)
    · intro hb
      subst hb
      exact hl.2 rfl (allBits_replicate _)

theorem simulateLoop_allBits (alice bob : Participant) (rng : Entropy) (hv : bitValued rng)
    (ha : allBits alice.bits) :
    ∀ (k i : Nat) (tb : List Int) (pos : Nat) (tb2 : List Int) (pos2 : Nat),
      simulateLoop alice bob rng i k tb pos = some (tb2, pos2) → allBits tb → allBits tb2 := by
  intro k
  induction k with
  | zero =>
    intro i tb pos tb2 pos2 h htb
    simp only [simulateLoop, Option.some.injEq, Prod.mk.injEq] at h
    rw [← h.1]; exact htb
  | succ k ih =>
    intro i tb pos tb2 pos2 h htb
    rw [simulateLoop] at h
    split at h
    · cases h
    · split at h
      · cases h
      · split at h
        · split at h
          · cases h
          · rename_i bit hbit
            exact ih _ _ _ _ _ h (allBits_set _ _ _ htb (ha bit (List.getElem?_mem hbit)))
        · split at h
          · cases h
          · rename_i r hr
            exact ih _ _ _ _ _ h (allBits_set _ _ _ htb (hv pos r hr))

theorem siftLoop_allBits (alice bob : Participant) (tb : List Int) (htb : allBits tb) :
    ∀ (k i : Nat) (acc key : List Int),
      siftLoop alice bob tb i k acc = some key → allBits acc → allBits key := by
  intro k
  induction k with
  | zero =>
    intro i acc key h hacc
    simp only [siftLoop, Option.some.injEq] at h
    rw [← h]; exact hacc
  | succ k ih =>
    intro i acc key h hacc
    rw [siftLoop] at h
    split at h
    · cases h
    · split at h
      · cases h
      · split at h
        · split at h
          · cases h
          · rename_i t ht
            refine ih _ _ _ h ?_
            intro x hx
            rcases List.mem_append.mp hx with hx1 | hx1
            · exact hacc x hx1
            · rw [List.mem_singleton.mp hx1]
              exact htb t (List.getElem?_mem ht)
        · exact ih _ _ _ h hacc

/-! ## Draws of the transmission step -/

theorem mismatchesFrom_zero (alice bob : Participant) (i : Nat) :
    mismatchesFrom alice bob i 0 = 0 := by
  simp [mismatchesFrom]

theorem mismatchesFrom_succ_agree (alice bob : Participant) (i k : Nat)
    (h : alice.bases.getD i 0 = bob.bases.getD i 0) :
    mismatchesFrom alice bob i (k + 1) = mismatchesFrom alice bob (i + 1) k := by
  simp only [List.getD_eq_getElem?_getD] at h
  simp [mismatchesFrom, List.range'_succ, List.filter_cons, h]

theorem mismatchesFrom_succ_differ (alice bob : Participant) (i k : Nat)
    (h : alice.bases.getD i 0 ≠ bob.bases.getD i 0) :
    mismatchesFrom alice bob i (k + 1) = mismatchesFrom alice bob (i + 1) k + 1 := by
  simp only [List.getD_eq_getElem?_getD] at h
  simp [mismatchesFrom, List.range'_succ, List.filter_cons, h]

theorem mismatchesBefore_eq (alice bob : Participant) (i : Nat) :
    mismatchesBefore alice bob i = mismatchesFrom alice bob 0 i := by
  rw [mismatchesBefore, mismatchesFrom, List.range_eq_range']

theorem getD_of_getElem? (l : List Int) (i : Nat) (a : Int) (h : l[i]? = some a) :
    l.getD i 0 = a := by
  rw [List.getD_eq_getElem?_getD, h]; rfl

theorem simulateLoop_of_some (alice bob : Participant) (rng : Entropy) :
    ∀ (k i : Nat) (tb : List Int) (pos : Nat) (tb2 : List Int) (pos2 : Nat),
      simulateLoop alice bob rng i k tb pos = some (tb2, pos2) → i + k ≤ tb.length →
      pos2 = pos + mismatchesFrom alice bob i k ∧
      (∀ j, j < i → tb2[j]? = tb[j]?) ∧
      (∀ j, i ≤ j → j < i + k → alice.bases.getD j 0 = bob.bases.getD j 0 →
        tb2[j]? = alice.bits[j]?) ∧
      (∀ j, i ≤ j → j < i + k → alice.bases.getD j 0 ≠ bob.bases.getD j 0 →
        tb2[j]? = rng (pos + mismatchesFrom alice bob i (j - i)) ∧
        (rng (pos + mismatchesFrom alice bob i (j - i))).isSome = true) := by
  intro k
  induction k with
  | zero =>
    intro i tb pos tb2 pos2 h _
    simp only [simulateLoop, Option.some.injEq, Prod.mk.injEq] at h
    obtain ⟨h1, h2⟩ := h
    subst h1 h2
    refine ⟨by rw [mismatchesFrom_zero]; rfl, fun _ _ => rfl, ?_, ?_⟩
    · intro j h1 h2; omega
    · intro j h1 h2; omega
  | succ k ih =>
    intro i tb pos tb2 pos2 h hlen
    have hit : i < tb.length := by omega
    rw [simulateLoop] at h
    split at h
    · cases h
    · rename_i a ha
      split at h
      · cases h
      · rename_i b hb
        have ea := getD_of_getElem? _ _ _ ha
        have eb := getD_of_getElem? _ _ _ hb
        split at h
        · rename_i hab
          have hag : alice.bases.getD i 0 = bob.bases.getD i 0 := by rw [ea, eb, hab]
          split at h
          · cases h
          · rename_i bit hbit
            obtain ⟨r1, r2, r3, r4⟩ := ih _ _ _ _ _ h (by simp; omega)
            refine ⟨?_, ?_, ?_, ?_⟩
            · rw [r1, mismatchesFrom_succ_agree _ _ _ _ hag]
            · intro j hj
              rw [r2 j (by omega), List.getElem?_set_ne (by omega)]
            · intro j hj1 hj2 hj3
              by_cases hji : j = i
              · subst hji
                rw [r2 j (by omega), List.getElem?_set_self hit, hbit]
              · exact r3 j (by omega) (by omega) hj3
            · intro j hj1 hj2 hj3
              have hji : j ≠ i := by
                intro hji
                subst hji
                exact hj3 hag
              have hsub : j - i = (j - (i + 1)) + 1 := by omega
              rw [hsub, mismatchesFrom_succ_agree _ _ _ _ hag]
              exact r4 j (by omega) (by omega) hj3
        · rename_i hab
          have hdf : alice.bases.getD i 0 ≠ bob.bases.getD i 0 := by rw [ea, eb]; exact hab
          split at h
          · cases h
          · rename_i r hr
            obtain ⟨r1, r2, r3, r4⟩ := ih _ _ _ _ _ h (by simp; omega)
            refine ⟨?_, ?_, ?_, ?_⟩
            · rw [r1, mismatchesFrom_succ_differ _ _ _ _ hdf]; omega
            · intro j hj
              rw [r2 j (by omega), List.getElem?_set_ne (by omega)]
            · intro j hj1 hj2 hj3
              have hji : j ≠ i := by
                intro hji
                subst hji
                exact hdf hj3
              exact r3 j (by omega) (by omega) hj3
            · intro j hj1 hj2 hj3
              by_cases hji : j = i
              · subst hji
                rw [r2 j (by omega), List.getElem?_set_self hit, Nat.sub_self,
                  mismatchesFrom_zero, Nat.add_zero, hr]
                exact ⟨rfl, rfl⟩
              · have hsub : j - i = (j - (i + 1)) + 1 := by omega
                rw [hsub, mismatchesFrom_succ_differ _ _ _ _ hdf]
                have := r4 j (by omega) (by omega) hj3
                have e : pos + (mismatchesFrom alice bob (i + 1) (j - (i + 1)) + 1) =
                    pos + 1 + mismatchesFrom alice bob (i + 1) (j - (i + 1)) := by omega
                rw [e]
                exact this

theorem simulateTransmission_of_some (q : QuantumChannel) (alice bob : Participant) (n : Int)
    (rng : Entropy) (pos : Nat) (tb : List Int) (pos2 : Nat)
    (h : simulateTransmission q alice bob n rng pos = some (tb, pos2)) :
    0 ≤ n ∧ pos2 = pos + mismatchesBefore alice bob n.toNat ∧
      (∀ i : Nat, (i : Int) < n → alice.bases.getD i 0 = bob.bases.getD i 0 →
        tb[i]? = alice.bits[i]?) ∧
      (∀ i : Nat, (i : Int) < n → alice.bases.getD i 0 ≠ bob.bases.getD i 0 →
        tb[i]? = rng (pos + mismatchesBefore alice bob i) ∧
        (rng (pos + mismatchesBefore alice bob i)).isSome = true) := by
  rw [simulateTransmission] at h
  by_cases hn : n < 0
  · rw [if_pos hn] at h; cases h
  · rw [if_neg hn] at h
    obtain ⟨r1, _, r3, r4⟩ := simulateLoop_of_some alice bob rng _ _ _ _ _ _ h (by simp)
    refine ⟨by omega, ?_, ?_, ?_⟩
    · rw [r1, mismatchesBefore_eq]
    · intro i hi hag
      exact r3 i (by omega) (by omega) hag
    · intro i hi hdf
      have := r4 i (by omega) (by omega) hdf
      rw [Nat.sub_zero] at this
      rw [mismatchesBefore_eq]
      exact this

theorem simulateLoop_alice_congr (alice1 alice2 bob : Participant) (rng : Entropy)
    (hb : alice1.bases = alice2.bases) :
    ∀ (k i : Nat) (tb : List Int) (pos : Nat),
      (∀ j, i ≤ j → j < i + k → alice1.bases.getD j 0 = bob.bases.getD j 0 →
        alice1.bits[j]? = alice2.bits[j]?) →
      simulateLoop alice1 bob rng i k tb pos = simulateLoop alice2 bob rng i k tb pos := by
  intro k
  induction k with
  | zero => intro i tb pos _; rw [simulateLoop, simulateLoop]
  | succ k ih =>
    intro i tb pos hbits
    have ih2 : ∀ tb2 pos2, simulateLoop alice1 bob rng (i + 1) k tb2 pos2 =
        simulateLoop alice2 bob rng (i + 1) k tb2 pos2 := fun tb2 pos2 =>
      ih (i + 1) tb2 pos2 (fun j h1 h2 h3 => hbits j (by omega) (by omega) h3)
    conv_lhs => rw [simulateLoop]
    conv_rhs => rw [simulateLoop]
    rw [← hb]
    cases ha : alice1.bases[i]? with
    | none => rfl
    | some a =>
      cases hbb : bob.bases[i]? with
      | none => rfl
      | some b =>
        simp only []
        by_cases hab : a = b
        · rw [if_pos hab, if_pos hab]
          have hag : alice1.bases.getD i 0 = bob.bases.getD i 0 := by
            rw [getD_of_getElem? _ _ _ ha, getD_of_getElem? _ _ _ hbb, hab]
          rw [← hbits i (by omega) (by omega) hag]
          cases alice1.bits[i]? with
          | none => rfl
          | some bit => exact ih2 _ _
        · rw [if_neg hab, if_neg hab]
          cases rng pos with
          | none => rfl
          | some r => exact ih2 _ _

theorem siftLoop_alice_congr (alice1 alice2 bob : Participant) (tb : List Int)
    (hb : alice1.bases = alice2.bases) :
    ∀ (k i : Nat) (acc : List Int),
      siftLoop alice1 bob tb i k acc = siftLoop alice2 bob tb i k acc := by
  intro k
  induction k with
  | zero => intro i acc; rw [siftLoop, siftLoop]
  | succ k ih =>
    intro i acc
    conv_lhs => rw [siftLoop]
    conv_rhs => rw [siftLoop]
    rw [← hb]
    simp only [ih]

/-- Claim C17 (mismatched-basis outcomes do not depend on the sender's
bit): two Alice states with the same bases whose bits coincide wherever
the bases agree give, for the same Bob and the same entropy source, the
same result of `simulateTransmission` and the same sifted key; in any
result the value at a mismatched index is the value returned by the request
made for that index. -/
theorem mismatch_outcome_independent (q : QuantumChannel) (alice1 alice2 bob : Participant)
    (n : Int) (rng : Entropy) (pos : Nat) (hb : alice1.bases = alice2.bases)
    (hbits : ∀ i : Nat, (i : Int) < n → alice1.bases.getD i 0 = bob.bases.getD i 0 →
      alice1.bits[i]? = alice2.bits[i]?) :
    simulateTransmission q alice1 bob n rng pos =
        simulateTransmission q alice2 bob n rng pos ∧
    (∀ tb, siftKey alice1 bob tb n = siftKey alice2 bob tb n) ∧
    (∀ tb pos2, simulateTransmission q alice1 bob n rng pos = some (tb, pos2) →
      ∀ i : Nat, (i : Int) < n → alice1.bases.getD i 0 ≠ bob.bases.getD i 0 →
        tb[i]? = rng (pos + mismatchesBefore alice1 bob i) ∧
        (rng (pos + mismatchesBefore alice1 bob i)).isSome = true) := by
  refine ⟨?_, ?_, ?_⟩
  · rw [simulateTransmission, simulateTransmission]
    by_cases hn : n < 0
    · rw [if_pos hn, if_pos hn]
    · rw [if_neg hn, if_neg hn]
      exact simulateLoop_alice_congr alice1 alice2 bob rng hb _ _ _ _
        (fun j _ h2 h3 => hbits j (by omega) h3)
  · intro tb
    exact siftLoop_alice_congr alice1 alice2 bob tb hb _ _ _
  · intro tb pos2 h
    exact (simulateTransmission_of_some q alice1 bob n rng pos tb pos2 h).2.2.2

/-- Witness for C17: the scenario of the specification and an Alice whose
bits differ at the mismatched indices 1 and 3; the draws are 7 and 9. -/
theorem mismatch_outcome_independent_witness :
    simulateTransmission ⟨[]⟩ ⟨[1, 0, 1, 1], [0, 1, 0, 0], "Alice"⟩ ⟨[], [0, 0, 0, 1], "Bob"⟩ 4
        (fun k => if k = 0 then some 7 else some 9) 0 =
      simulateTransmission ⟨[]⟩ ⟨[1, 1, 1, 0], [0, 1, 0, 0], "Alice"⟩ ⟨[], [0, 0, 0, 1], "Bob"⟩ 4
        (fun k => if k = 0 then some 7 else some 9) 0 ∧
    simulateTransmission ⟨[]⟩ ⟨[1, 0, 1, 1], [0, 1, 0, 0], "Alice"⟩ ⟨[], [0, 0, 0, 1], "Bob"⟩ 4
        (fun k => if k = 0 then some 7 else some 9) 0 = some ([1, 7, 1, 9], 2) :=
  ⟨(mismatch_outcome_independent ⟨[]⟩ ⟨[1, 0, 1, 1], [0, 1, 0, 0], "Alice"⟩
      ⟨[1, 1, 1, 0], [0, 1, 0, 0], "Alice"⟩ ⟨[], [0, 0, 0, 1], "Bob"⟩ 4
      (fun k => if k = 0 then some 7 else some 9) 0 rfl
      (by
        intro i hi
        have h4 : i < 4 := by omega
        interval_cases i <;> decide)).1, by decide⟩

/-! ## Values written by a run -/

theorem generateLoop_content (rng : Entropy) (isBit : Bool) :
    ∀ (k i : Nat) (p : Participant) (pos : Nat) (p2 : Participant) (pos2 : Nat),
      generateLoop rng isBit i k p pos = (p2, pos2, none) →
      pos2 = pos + k ∧
      (isBit = true → i + k ≤ p.bits.length →
        (∀ j, j < i → p2.bits[j]? = p.bits[j]?) ∧
        (∀ j, i ≤ j → j < i + k → p2.bits[j]? = rng (pos + (j - i)))) ∧
      (isBit = false → i + k ≤ p.bases.length →
        (∀ j, j < i → p2.bases[j]? = p.bases[j]?) ∧
        (∀ j, i ≤ j → j < i + k → p2.bases[j]? = rng (pos + (j - i)))) := by
  intro k
  induction k with
  | zero =>
    intro i p pos p2 pos2 h
    simp only [generateLoop, Prod.mk.injEq] at h
    obtain ⟨h1, h2, _⟩ := h
    subst h1 h2
    refine ⟨rfl, fun _ _ => ⟨fun _ _ => rfl, ?_⟩, fun _ _ => ⟨fun _ _ => rfl, ?_⟩⟩
    · intro j h1 h2; omega
    · intro j h1 h2; omega
  | succ k ih =>
    intro i p pos p2 pos2 h
    rw [generateLoop] at h
    cases hrp : rng pos with
    | none => rw [hrp] at h; simp at h
    | some num =>
      rw [hrp] at h
      cases isBit with
      | true =>
        simp only [if_true] at h
        obtain ⟨r1, r2, _⟩ := ih _ _ _ _ _ h
        refine ⟨by omega, ?_, fun hc => Bool.noConfusion hc⟩
        intro _ hlen
        have hil : i < p.bits.length := by omega
        obtain ⟨q1, q2⟩ := r2 rfl (by simp; omega)
        constructor
        · intro j hj
          rw [q1 j (by omega)]
          exact List.getElem?_set_ne (by omega)
        · intro j hj1 hj2
          by_cases hji : j = i
          · subst hji
            rw [q1 j (by omega), Nat.sub_self, Nat.add_zero, hrp]
            exact List.getElem?_set_self hil
          · rw [q2 j (by omega) (by omega)]
            congr 1
            omega
      | false =>
        simp only [Bool.false_eq_true, if_false] at h
        obtain ⟨r1, _, r3⟩ := ih _ _ _ _ _ h
        refine ⟨by omega, fun hc => Bool.noConfusion hc, ?_⟩
        intro _ hlen
        have hil : i < p.bases.length := by omega
        obtain ⟨q1, q2⟩ := r3 rfl (by simp; omega)
        constructor
        · intro j hj
          rw [q1 j (by omega)]
          exact List.getElem?_set_ne (by omega)
        · intro j hj1 hj2
          by_cases hji : j = i
          · subst hji
            rw [q1 j (by omega), Nat.sub_self, Nat.add_zero, hrp]
            exact List.getElem?_set_self hil
          · rw [q2 j (by omega) (by omega)]
            congr 1
            omega

theorem generateRandomSequence_content (p p2 : Participant) (n : Int) (isBit : Bool)
    (rng : Entropy) (pos pos2 : Nat)
    (h : generateRandomSequence p n isBit rng pos = some (p2, pos2, none)) :
    pos2 = pos + n.toNat ∧
      (isBit = true → ∀ j, j < n.toNat → p2.bits[j]? = rng (pos + j)) ∧
      (isBit = false → ∀ j, j < n.toNat → p2.bases[j]? = rng (pos + j)) := by
  rw [generateRandomSequence] at h
  by_cases hn : n ≤ 0
  · rw [if_pos hn] at h; cases h
  · rw [if_neg hn] at h
    by_cases hm : maxSliceLen < n.toNat
    · rw [if_pos hm] at h; cases h
    rw [if_neg hm] at h
    simp only [Option.some.injEq] at h
    obtain ⟨r1, r2, r3⟩ := generateLoop_content rng isBit _ _ _ _ _ _ h
    refine ⟨r1, ?_, ?_⟩
    · intro hb j hj
      subst hb
      have := (r2 rfl (by simp)).2 j (by omega) (by omega)
      rw [Nat.sub_zero] at this
      exact this
    · intro hb j hj
      subst hb
      have := (r3 rfl (by simp)).2 j (by omega) (by omega)
      rw [Nat.sub_zero] at this
      exact this

theorem list_eq_of_getElem?_lt (l1 l2 : List Int) (n : Nat) (h1 : l1.length = n)
    (h2 : l2.length = n) (h : ∀ j, j < n → l1[j]? = l2[j]?) : l1 = l2 := by
  apply List.ext_getElem?
  intro j
  by_cases hj : j < n
  · exact h j hj
  · rw [List.getElem?_eq_none (by omega), List.getElem?_eq_none (by omega)]

/-! ## State after a successful run -/

theorem Run_success_key (bb84 s : BB84Protocol) (rng : Entropy) (pos pos2 : Nat)
    (h : Run bb84 rng pos = some (s, pos2, none)) :
    s.sharedKey = (agreeingIndices s.alice s.bob bb84.numberOfBits.toNat).map
        (fun i => s.channel.transmittedBits.getD i 0) ∧
      s.sharedKey = (agreeingIndices s.alice s.bob bb84.numberOfBits.toNat).map
        (fun i => s.alice.bits.getD i 0) := by
  obtain ⟨a1, p1, p2, p3, _, _, _, h4, h5, _, _⟩ := Run_success_shape bb84 s rng pos pos2 h
  obtain ⟨hn, l1, l2, l3, l4, _⟩ := Run_success_lengths bb84 s rng pos pos2 h
  have hc := siftKey_closed s.alice s.bob s.channel.transmittedBits bb84.numberOfBits
    (by omega) (by omega) (by omega)
  rw [h5] at hc
  simp only [Option.some.injEq] at hc
  refine ⟨hc, ?_⟩
  rw [hc]
  obtain ⟨_, _, g3, _⟩ := simulateTransmission_of_some _ _ _ _ _ _ _ _ h4
  apply List.map_congr_left
  intro i hi
  simp only [agreeingIndices, List.mem_filter, List.mem_range, beq_iff_eq] at hi
  simp only [List.getD_eq_getElem?_getD]
  rw [g3 i (by omega) hi.2]

theorem generateLoop_status (rng : Entropy) (isBit : Bool) :
    ∀ (k i : Nat) (p q : Participant) (pos : Nat),
      (generateLoop rng isBit i k p pos).2 = (generateLoop rng isBit i k q pos).2 := by
  intro k
  induction k with
  | zero => intro i p q pos; rfl
  | succ k ih =>
    intro i p q pos
    rw [generateLoop, generateLoop]
    cases rng pos with
    | none => rfl
    | some num =>
      cases isBit with
      | true => exact ih _ _ _ _
      | false => exact ih _ _ _ _

theorem generateRandomSequence_status (p q p2 : Participant) (n : Int) (isBit : Bool)
    (rng : Entropy) (pos pos2 : Nat) (e : Option GoError)
    (h : generateRandomSequence p n isBit rng pos = some (p2, pos2, e)) :
    ∃ q2, generateRandomSequence q n isBit rng pos = some (q2, pos2, e) := by
  rw [generateRandomSequence] at h ⊢
  by_cases hn : n ≤ 0
  · rw [if_pos hn] at h ⊢
    simp only [Option.some.injEq, Prod.mk.injEq] at h
    exact ⟨q, by rw [← h.2.1, ← h.2.2]⟩
  · rw [if_neg hn] at h ⊢
    by_cases hm : maxSliceLen < n.toNat
    · rw [if_pos hm] at h; cases h
    rw [if_neg hm] at h ⊢
    simp only [Option.some.injEq] at h
    have hs := generateLoop_status rng isBit n.toNat 0
      (if isBit = true then { q with bits := List.replicate n.toNat 0 }
        else { q with bases := List.replicate n.toNat 0 })
      (if isBit = true then { p with bits := List.replicate n.toNat 0 }
        else { p with bases := List.replicate n.toNat 0 }) pos
    rw [h] at hs
    refine ⟨(generateLoop rng isBit 0 n.toNat
      (if isBit = true then { q with bits := List.replicate n.toNat 0 }
        else { q with bases := List.replicate n.toNat 0 }) pos).1, ?_⟩
    simp only []
    congr 1
    exact Prod.ext rfl hs

theorem simulateLoop_congr (alice alice2 bob bob2 : Participant) (rng : Entropy)
    (h1 : alice.bits = alice2.bits) (h2 : alice.bases = alice2.bases)
    (h3 : bob.bases = bob2.bases) :
    ∀ (k i : Nat) (tb : List Int) (pos : Nat),
      simulateLoop alice bob rng i k tb pos = simulateLoop alice2 bob2 rng i k tb pos := by
  intro k
  induction k with
  | zero => intro i tb pos; rw [simulateLoop, simulateLoop]
  | succ k ih =>
    intro i tb pos
    conv_lhs => rw [simulateLoop]
    conv_rhs => rw [simulateLoop]
    rw [← h1, ← h2, ← h3]
    simp only [ih]

theorem siftLoop_congr (alice alice2 bob bob2 : Participant) (tb : List Int)
    (h2 : alice.bases = alice2.bases) (h3 : bob.bases = bob2.bases) :
    ∀ (k i : Nat) (acc : List Int),
      siftLoop alice bob tb i k acc = siftLoop alice2 bob2 tb i k acc := by
  intro k
  induction k with
  | zero => intro i acc; rw [siftLoop, siftLoop]
  | succ k ih =>
    intro i acc
    conv_lhs => rw [siftLoop]
    conv_rhs => rw [siftLoop]
    rw [← h2, ← h3]
    simp only [ih]

theorem Run_success_draws (bb84 s : BB84Protocol) (rng : Entropy) (pos pos2 : Nat)
    (h : Run bb84 rng pos = some (s, pos2, none)) :
    (∀ i, i < bb84.numberOfBits.toNat → s.alice.bits[i]? = rng (pos + i)) ∧
    (∀ i, i < bb84.numberOfBits.toNat →
      s.alice.bases[i]? = rng (pos + bb84.numberOfBits.toNat + i)) ∧
    (∀ i, i < bb84.numberOfBits.toNat →
      s.bob.bases[i]? = rng (pos + 2 * bb84.numberOfBits.toNat + i)) ∧
    (∀ i, i < bb84.numberOfBits.toNat →
      s.alice.bases.getD i 0 = s.bob.bases.getD i 0 →
      s.channel.transmittedBits[i]? = s.alice.bits[i]?) ∧
    (∀ i, i < bb84.numberOfBits.toNat →
      s.alice.bases.getD i 0 ≠ s.bob.bases.getD i 0 →
      s.channel.transmittedBits[i]? =
        rng (pos + 3 * bb84.numberOfBits.toNat + mismatchesBefore s.alice s.bob i)) ∧
    pos2 = pos + 3 * bb84.numberOfBits.toNat +
      mismatchesBefore s.alice s.bob bb84.numberOfBits.toNat := by
  obtain ⟨a1, p1, p2, p3, h1, h2, h3, h4, _, _, _⟩ := Run_success_shape bb84 s rng pos pos2 h
  obtain ⟨c1, c2, _⟩ := generateRandomSequence_content _ _ _ _ _ _ _ h1
  obtain ⟨d1, _, d3⟩ := generateRandomSequence_content _ _ _ _ _ _ _ h2
  obtain ⟨e1, _, e3⟩ := generateRandomSequence_content _ _ _ _ _ _ _ h3
  have fb : s.alice.bits = a1.bits :=
    ((generateRandomSequence_frame _ _ _ _ _ _ _ h2).2.2.2 rfl).2
  obtain ⟨hn, g2, g3, g4⟩ := simulateTransmission_of_some _ _ _ _ _ _ _ _ h4
  subst c1 d1 e1
  refine ⟨?_, ?_, ?_, ?_, ?_, ?_⟩
  · intro i hi
    rw [fb]
    exact c2 rfl i hi
  · intro i hi
    exact d3 rfl i hi
  · intro i hi
    rw [e3 rfl i hi]
    congr 1
    omega
  · intro i hi hag
    exact g3 i (by omega) hag
  · intro i hi hdf
    rw [(g4 i (by omega) hdf).1]
    congr 1
    omega
  · rw [g2]
    omega

theorem Run_prior_independent (bb84 bb84b s : BB84Protocol) (rng : Entropy) (pos pos2 : Nat)
    (h : Run bb84 rng pos = some (s, pos2, none))
    (hn : bb84b.numberOfBits = bb84.numberOfBits) :
    ∃ sb, Run bb84b rng pos = some (sb, pos2, none) ∧
      sb.alice.bits = s.alice.bits ∧ sb.alice.bases = s.alice.bases ∧
      sb.bob.bases = s.bob.bases ∧ sb.channel = s.channel ∧
      sb.sharedKey = s.sharedKey ∧ sb.SecureComm = s.SecureComm := by
  obtain ⟨a1, p1, p2, p3, h1, h2, h3, h4, h5, h6, _⟩ := Run_success_shape bb84 s rng pos pos2 h
  obtain ⟨a1b, k1⟩ := generateRandomSequence_status _ bb84b.alice _ _ _ _ _ _ _ h1
  obtain ⟨a2b, k2⟩ := generateRandomSequence_status _ a1b _ _ _ _ _ _ _ h2
  obtain ⟨b1b, k3⟩ := generateRandomSequence_status _ bb84b.bob _ _ _ _ _ _ _ h3
  obtain ⟨_, _, f1, _⟩ := generateRandomSequence_frame _ _ _ _ _ _ _ h1
  obtain ⟨_, _, _, f2⟩ := generateRandomSequence_frame _ _ _ _ _ _ _ h2
  obtain ⟨_, _, _, f3⟩ := generateRandomSequence_frame _ _ _ _ _ _ _ h3
  obtain ⟨_, _, f1b, _⟩ := generateRandomSequence_frame _ _ _ _ _ _ _ k1
  obtain ⟨_, _, _, f2b⟩ := generateRandomSequence_frame _ _ _ _ _ _ _ k2
  obtain ⟨_, _, _, f3b⟩ := generateRandomSequence_frame _ _ _ _ _ _ _ k3
  obtain ⟨_, c1, _⟩ := generateRandomSequence_content _ _ _ _ _ _ _ h1
  obtain ⟨_, _, c2⟩ := generateRandomSequence_content _ _ _ _ _ _ _ h2
  obtain ⟨_, _, c3⟩ := generateRandomSequence_content _ _ _ _ _ _ _ h3
  obtain ⟨_, c1b, _⟩ := generateRandomSequence_content _ _ _ _ _ _ _ k1
  obtain ⟨_, _, c2b⟩ := generateRandomSequence_content _ _ _ _ _ _ _ k2
  obtain ⟨_, _, c3b⟩ := generateRandomSequence_content _ _ _ _ _ _ _ k3
  have e1 : a1b.bits = a1.bits :=
    list_eq_of_getElem?_lt _ _ bb84.numberOfBits.toNat
      (by have := (f1b rfl).1; omega) (by have := (f1 rfl).1; omega)
      (fun j hj => by rw [c1b rfl j hj, c1 rfl j hj])
  have ebits : a2b.bits = s.alice.bits := by rw [(f2b rfl).2, (f2 rfl).2, e1]
  have ebases : a2b.bases = s.alice.bases :=
    list_eq_of_getElem?_lt _ _ bb84.numberOfBits.toNat
      (by have := (f2b rfl).1; omega) (by have := (f2 rfl).1; omega)
      (fun j hj => by rw [c2b rfl j hj, c2 rfl j hj])
  have ebob : b1b.bases = s.bob.bases :=
    list_eq_of_getElem?_lt _ _ bb84.numberOfBits.toNat
      (by have := (f3b rfl).1; omega) (by have := (f3 rfl).1; omega)
      (fun j hj => by rw [c3b rfl j hj, c3 rfl j hj])
  have k4 : simulateTransmission bb84b.channel a2b b1b bb84.numberOfBits rng p3 =
      some (s.channel.transmittedBits, pos2) := by
    rw [← h4, simulateTransmission, simulateTransmission]
    split
    · rfl
    · exact simulateLoop_congr _ _ _ _ rng ebits ebases ebob _ _ _ _
  have k5 : siftKey a2b b1b s.channel.transmittedBits bb84.numberOfBits = some s.sharedKey := by
    rw [← h5, siftKey, siftKey]
    exact siftLoop_congr _ _ _ _ _ ebases ebob _ _ _
  refine ⟨{ bb84b with
            alice := a2b
            bob := b1b
            channel := { transmittedBits := s.channel.transmittedBits }
            sharedKey := s.sharedKey
            SecureComm := InitializeSecureChannel bb84b.SecureComm s.sharedKey },
    ?_, ebits, ebases, ebob, rfl, rfl, ?_⟩
  · rw [Run, hn, k1]
    simp only []
    rw [k2]
    simp only []
    rw [k3]
    simp only []
    rw [k4]
    simp only []
    rw [k5]
  · rw [h6]
    rfl

/-- Claim C16 (re-run is not additive): after a successful `Run` from any
prior state the message log of `SecureComm` is empty, the key stored in
`SecureComm` is the coordinator's `sharedKey`, and that key is the sift of
this run's transmitted bits against this run's bases.  The sequences are
those of this run: Alice's bits, Alice's bases and Bob's bases are the
values of the first `3n` requests made by this call, a transmitted bit is
Alice's new bit where the new bases agree and the value of this call's next
request where they differ.  Nothing of the prior state is retained: the
run of any other coordinator with the same `numberOfBits`, a fresh one
included, on the same entropy source ends in the same sequences, key and
`SecureComm`. -/
theorem rerun_overwrites (bb84 s : BB84Protocol) (rng : Entropy) (pos pos2 : Nat)
    (h : Run bb84 rng pos = some (s, pos2, none)) :
    s.SecureComm.messages = [] ∧ s.SecureComm.sharedKey = s.sharedKey ∧
    siftKey s.alice s.bob s.channel.transmittedBits s.numberOfBits = some s.sharedKey ∧
    s.sharedKey = (agreeingIndices s.alice s.bob s.numberOfBits.toNat).map
      (fun i => s.alice.bits.getD i 0) ∧
    ((s.alice.bits.length : Int) = s.numberOfBits ∧
      (s.alice.bases.length : Int) = s.numberOfBits ∧
      (s.bob.bases.length : Int) = s.numberOfBits ∧
      (s.channel.transmittedBits.length : Int) = s.numberOfBits ∧
      s.numberOfBits = bb84.numberOfBits) ∧
    ((∀ i, i < s.numberOfBits.toNat → s.alice.bits[i]? = rng (pos + i)) ∧
      (∀ i, i < s.numberOfBits.toNat →
        s.alice.bases[i]? = rng (pos + s.numberOfBits.toNat + i)) ∧
      (∀ i, i < s.numberOfBits.toNat →
        s.bob.bases[i]? = rng (pos + 2 * s.numberOfBits.toNat + i)) ∧
      (∀ i, i < s.numberOfBits.toNat →
        s.alice.bases.getD i 0 = s.bob.bases.getD i 0 →
        s.channel.transmittedBits[i]? = s.alice.bits[i]?) ∧
      (∀ i, i < s.numberOfBits.toNat →
        s.alice.bases.getD i 0 ≠ s.bob.bases.getD i 0 →
        s.channel.transmittedBits[i]? =
          rng (pos + 3 * s.numberOfBits.toNat + mismatchesBefore s.alice s.bob i)) ∧
      pos2 = pos + 3 * s.numberOfBits.toNat +
        mismatchesBefore s.alice s.bob s.numberOfBits.toNat) ∧
    (∀ other : BB84Protocol, other.numberOfBits = bb84.numberOfBits →
      ∃ t, Run other rng pos = some (t, pos2, none) ∧
        t.alice.bits = s.alice.bits ∧ t.alice.bases = s.alice.bases ∧
        t.bob.bases = s.bob.bases ∧ t.channel = s.channel ∧
        t.sharedKey = s.sharedKey ∧ t.SecureComm = s.SecureComm) := by
  obtain ⟨a1, p1, p2, p3, _, _, _, _, h5, h6, h7⟩ := Run_success_shape bb84 s rng pos pos2 h
  obtain ⟨_, l1, l2, l3, l4, _⟩ := Run_success_lengths bb84 s rng pos pos2 h
  have hd := Run_success_draws bb84 s rng pos pos2 h
  rw [h7]
  exact ⟨by rw [h6], by rw [h6], h5, (Run_success_key bb84 s rng pos pos2 h).2,
    ⟨l1, l2, l3, l4, rfl⟩, hd,
    fun other ho => Run_prior_independent bb84 other s rng pos pos2 h ho⟩

/-- Witness for C16: a coordinator that has run with every draw equal to
1 and has logged a message is run again with every draw equal to 0. -/
theorem rerun_overwrites_witness :
    Run { alice := ⟨[1, 1], [1, 1], "Alice"⟩, bob := ⟨[], [1, 1], "Bob"⟩, sharedKey := [1, 1],
          numberOfBits := 2, channel := ⟨[1, 1]⟩,
          SecureComm := ⟨[1, 1], [⟨[83, 71, 107, 61], "Alice"⟩]⟩ } (fun _ => some 0) 0 =
        some ({ alice := ⟨[0, 0], [0, 0], "Alice"⟩, bob := ⟨[], [0, 0], "Bob"⟩,
                sharedKey := [0, 0], numberOfBits := 2, channel := ⟨[0, 0]⟩,
                SecureComm := ⟨[0, 0], []⟩ }, 6, none) ∧
      ({ alice := ⟨[0, 0], [0, 0], "Alice"⟩, bob := ⟨[], [0, 0], "Bob"⟩, sharedKey := [0, 0],
         numberOfBits := 2, channel := ⟨[0, 0]⟩,
         SecureComm := ⟨[0, 0], []⟩ } : BB84Protocol).SecureComm.messages = [] :=
  ⟨by decide,
   (rerun_overwrites
    { alice := ⟨[1, 1], [1, 1], "Alice"⟩, bob := ⟨[], [1, 1], "Bob"⟩, sharedKey := [1, 1],
      numberOfBits := 2, channel := ⟨[1, 1]⟩,
      SecureComm := ⟨[1, 1], [⟨[83, 71, 107, 61], "Alice"⟩]⟩ }
    { alice := ⟨[0, 0], [0, 0], "Alice"⟩, bob := ⟨[], [0, 0], "Bob"⟩, sharedKey := [0, 0],
      numberOfBits := 2, channel := ⟨[0, 0]⟩,
      SecureComm := ⟨[0, 0], []⟩ }
    (fun _ => some 0) 0 6 (by decide)).1⟩

/-- Claim C18 (key alphabet): when every value returned by the entropy
source is 0 or 1, after a successful `Run` every element of Alice's bits, of
the transmitted bits and of the shared key is 0 or 1, and every element of
Alice's and Bob's bases is `ZBasis` or `XBasis`. -/
theorem run_alphabet (bb84 s : BB84Protocol) (rng : Entropy) (pos pos2 : Nat)
    (hv : bitValued rng) (h : Run bb84 rng pos = some (s, pos2, none)) :
    (∀ x ∈ s.alice.bits, x = 0 ∨ x = 1) ∧
      (∀ x ∈ s.channel.transmittedBits, x = 0 ∨ x = 1) ∧
      (∀ x ∈ s.sharedKey, x = 0 ∨ x = 1) ∧
      (∀ b ∈ s.alice.bases, b = ZBasis ∨ b = XBasis) ∧
      (∀ b ∈ s.bob.bases, b = ZBasis ∨ b = XBasis) := by
  obtain ⟨a1, p1, p2, p3, h1, h2, h3, h4, h5, _, _⟩ := Run_success_shape bb84 s rng pos pos2 h
  have b1 : allBits a1.bits := (generateRandomSequence_allBits _ _ _ _ _ _ _ hv h1).1 rfl
  have b2 : allBits s.alice.bases := (generateRandomSequence_allBits _ _ _ _ _ _ _ hv h2).2 rfl
  have b3 : allBits s.bob.bases := (generateRandomSequence_allBits _ _ _ _ _ _ _ hv h3).2 rfl
  have e2 : s.alice.bits = a1.bits :=
    ((generateRandomSequence_frame _ _ _ _ _ _ _ h2).2.2.2 rfl).2
  have b4 : allBits s.alice.bits := by rw [e2]; exact b1
  have b5 : allBits s.channel.transmittedBits := by
    rw [simulateTransmission] at h4
    split at h4
    · cases h4
    · exact simulateLoop_allBits _ _ _ hv b4 _ _ _ _ _ _ h4 (allBits_replicate _)
  have b6 : allBits s.sharedKey :=
    siftLoop_allBits _ _ _ b5 _ _ _ _ h5 (by intro x hx; cases hx)
  exact ⟨b4, b5, b6, b2, b3⟩

/-- Witness for C18: a run with `n = 2` whose draws alternate 0 and 1. -/
theorem run_alphabet_witness :
    allBits ({ alice := ⟨[0, 1], [0, 1], "Alice"⟩, bob := ⟨[], [0, 1], "Bob"⟩,
               sharedKey := [0, 1], numberOfBits := 2, channel := ⟨[0, 1]⟩,
               SecureComm := ⟨[0, 1], []⟩ } : BB84Protocol).sharedKey :=
  (run_alphabet (NewBB84Protocol 2)
    { alice := ⟨[0, 1], [0, 1], "Alice"⟩, bob := ⟨[], [0, 1], "Bob"⟩,
      sharedKey := [0, 1], numberOfBits := 2, channel := ⟨[0, 1]⟩,
      SecureComm := ⟨[0, 1], []⟩ }
    (fun k => some (k % 2)) 0 6
    (by
      intro k v hk
      simp only [Option.some.injEq] at hk
      omega)
    (by decide)).2.2.1

/-! ## Length of the shared key -/

set_option maxRecDepth 100000

/-- Claim C19 as stated fails: when the 128 bases drawn for Alice are all
`ZBasis` and the 128 bases drawn for Bob are all `XBasis`, `Run` on
`NewBB84Protocol(128)` succeeds with an empty shared key. -/
theorem run_128_empty_key :
    Run (NewBB84Protocol 128) (fun k => if 256 ≤ k ∧ k < 384 then some 1 else some 0) 0 =
      some ({ alice := ⟨List.replicate 128 0, List.replicate 128 0, "Alice"⟩,
              bob := ⟨[], List.replicate 128 1, "Bob"⟩, sharedKey := [],
              numberOfBits := 128, channel := ⟨List.replicate 128 0⟩,
              SecureComm := ⟨[], []⟩ }, 512, none) := by
  decide

/-- Claim C19, amended: after a successful `Run` on `NewBB84Protocol(128)`
the length of the shared key is the number of indices below 128 at which
Alice's and Bob's bases agree; it is at most 128 and it is greater than
zero exactly when the bases agree at some index. -/
theorem run_128_key_length (s : BB84Protocol) (rng : Entropy) (pos pos2 : Nat)
    (h : Run (NewBB84Protocol 128) rng pos = some (s, pos2, none)) :
    s.sharedKey.length = (agreeingIndices s.alice s.bob 128).length ∧
      s.sharedKey.length ≤ 128 ∧
      (0 < s.sharedKey.length ↔
        ∃ i, i < 128 ∧ s.alice.bases.getD i 0 = s.bob.bases.getD i 0) := by
  have hk := (Run_success_key _ s rng pos pos2 h).1
  have hl := (Run_success_lengths _ s rng pos pos2 h).2.2.2.2.2
  have hn : (NewBB84Protocol 128).numberOfBits = 128 := rfl
  rw [hn] at hk hl
  have h128 : (128 : Int).toNat = 128 := rfl
  rw [h128] at hk
  have hlen : s.sharedKey.length = (agreeingIndices s.alice s.bob 128).length := by
    rw [hk, List.length_map]
  refine ⟨hlen, by omega, ?_⟩
  rw [hlen, List.length_pos_iff_exists_mem]
  constructor
  · rintro ⟨i, hi⟩
    simp only [agreeingIndices, List.mem_filter, List.mem_range, beq_iff_eq] at hi
    exact ⟨i, hi.1, hi.2⟩
  · rintro ⟨i, hi1, hi2⟩
    refine ⟨i, ?_⟩
    simp only [agreeingIndices, List.mem_filter, List.mem_range, beq_iff_eq]
    exact ⟨hi1, hi2⟩

/-- Witness for C19 (amended): the run of 128 bits with every draw equal to
0, in which all bases agree. -/
theorem run_128_key_length_witness :
    (List.replicate 128 (0 : Int)).length =
      (agreeingIndices ⟨List.replicate 128 0, List.replicate 128 0, "Alice"⟩
        ⟨[], List.replicate 128 0, "Bob"⟩ 128).length :=
  (run_128_key_length
    { alice := ⟨List.replicate 128 0, List.replicate 128 0, "Alice"⟩,
      bob := ⟨[], List.replicate 128 0, "Bob"⟩, sharedKey := List.replicate 128 0,
      numberOfBits := 128, channel := ⟨List.replicate 128 0⟩,
      SecureComm := ⟨List.replicate 128 0, []⟩ }
    (fun _ => some 0) 0 384 (by decide)).1

end BB84
